import Mathlib

/-!
Verification development for the experiment-runner module `run.py`.

The Python module declares experiments (`add`), expands argument
combinations (`itertools.product`), resolves templated values
(`deblob`, with `[[key]]` substitution), keeps a registry of runs
(`_add_run`, `_is_selected`, `_is_skipped`), and executes runs
(`_run_run`) with a return-code policy and lock-protected output files.

Every definition below is a shallow embedding of the corresponding
Python function.  Python dictionaries are modelled as ordered
association lists (insertion order preserved, unique keys), the file
system as a list of existing paths, and user-supplied callables are
defunctionalized: blob values carry a code `f : F` that an abstract
application map `app : F → Assignment F → Value F` interprets, which
keeps the development fully general over the behaviour of callables.
Recursions over character lists use a fuel parameter that is an upper
bound on the number of scan steps (each step consumes at least one
character, so `length` fuel suffices); this keeps every definition
structurally recursive and hence evaluable by `decide` / `rfl`.
-/

namespace RunPy

/-- A Python value as it appears in argument assignments and blobs:
a string, an integer, `None`, or a callable (defunctionalized as a
code of type `F`). -/
inductive Value (F : Type) where
  | vstr : String → Value F
  | vint : Int → Value F
  | vnone : Value F
  | vfun : F → Value F
deriving DecidableEq, Repr

/-- An argument assignment: the ordered dictionary mapping argument
names to values (`args` in `run.py`). -/
abbrev Assignment (F : Type) := List (String × Value F)

/-- Decidable equality of `Except` results (for evaluating the model on
concrete inputs). -/
instance {ε α : Type} [DecidableEq ε] [DecidableEq α] : DecidableEq (Except ε α) := fun a b =>
  match a, b with
  | .ok x, .ok y =>
    if h : x = y then isTrue (by rw [h]) else isFalse (by intro hc; cases hc; exact h rfl)
  | .error x, .error y =>
    if h : x = y then isTrue (by rw [h]) else isFalse (by intro hc; cases hc; exact h rfl)
  | .ok _, .error _ => isFalse (by intro hc; cases hc)
  | .error _, .ok _ => isFalse (by intro hc; cases hc)

/-- Association-list lookup, mirroring Python `d[k]` / `k in d`. -/
def alookup {κ β : Type} [DecidableEq κ] : List (κ × β) → κ → Option β
  | [], _ => none
  | (k, b) :: rest, key => if k = key then some b else alookup rest key

/-- Association-list lookup with a default value. -/
def alookupD {κ β : Type} [DecidableEq κ] (l : List (κ × β)) (key : κ) (d : β) : β :=
  (alookup l key).getD d

/-- Update the entry of an existing key in place (Python `d[k] = f d[k]`
for a key known to be present); keys absent from the list are untouched. -/
def amodify {κ β : Type} [DecidableEq κ] : List (κ × β) → κ → (β → β) → List (κ × β)
  | [], _, _ => []
  | (k, b) :: rest, key, f => if k = key then (k, f b) :: rest else (k, b) :: amodify rest key f

/-- Python `d[k] = v`: replace the value at `k` keeping its position, or
append a new entry at the end (dict insertion order). -/
def aupdate {κ β : Type} [DecidableEq κ] : List (κ × β) → κ → β → List (κ × β)
  | [], key, v => [(key, v)]
  | (k, b) :: rest, key, v => if k = key then (k, v) :: rest else (k, b) :: aupdate rest key v

/-- Python `str()` on the values a blob can evaluate to.  The textual
form of a callable is address-dependent in Python; it is abstracted to
a fixed tag here (no claim depends on it). -/
def strOfValue {F : Type} : Value F → String
  | .vstr s => s
  | .vint n => toString n
  | .vnone => ("None")
  | .vfun _ => ("<function>")

/-- From the character list following `[[`, consume characters of the
class `[^\[\]]*` greedily and require the closing `]]`, as the regex
`\[\[([^\[\]]*)\]\]` does; returns the key and the rest of the input.
Since the consumed class excludes `]`, only the maximal run can be
followed by `]]`, so this scan is exactly the regex's behaviour. -/
def scanKey : List Char → Option (List Char × List Char)
  | ']' :: ']' :: rest => some ([], rest)
  | ']' :: _ => none
  | '[' :: _ => none
  | [] => none
  | c :: rest =>
    match scanKey rest with
    | some (k, r) => some (c :: k, r)
    | none => none

/-- All keys matched by `re.finditer(r"\[\[([^\[\]]*)\]\]", s)`, in
order, non-overlapping, retrying at the next position when a `[[` is
not closed.  The fuel is an upper bound on scan steps (every step drops
at least one character), so `length` fuel computes the full scan. -/
def findTokensAux : Nat → List Char → List (List Char)
  | 0, _ => []
  | _ + 1, [] => []
  | fuel + 1, '[' :: '[' :: rest =>
    match scanKey rest with
    | some (k, r) => k :: findTokensAux fuel r
    | none => findTokensAux fuel ('[' :: rest)
  | fuel + 1, _ :: rest => findTokensAux fuel rest

/-- `[m.group(1) for m in re.finditer(r"\[\[([^\[\]]*)\]\]", blob)]`. -/
def findTokensStr (s : String) : List String :=
  (findTokensAux s.data.length s.data).map (fun cs => String.mk cs)

/-- Python `str.replace` for a non-empty pattern: replace every
non-overlapping occurrence, scanning left to right.  Fuel as above. -/
def replaceAllAux (pat rep : List Char) : Nat → List Char → List Char
  | 0, s => s
  | _ + 1, [] => []
  | fuel + 1, c :: rest =>
    if pat.isPrefixOf (c :: rest) && !pat.isEmpty then
      rep ++ replaceAllAux pat rep fuel ((c :: rest).drop pat.length)
    else
      c :: replaceAllAux pat rep fuel rest

/-- `s.replace(pat, rep)` on strings. -/
def replaceAll (s pat rep : String) : String :=
  String.mk (replaceAllAux pat.data rep.data s.data.length s.data)

/-- Python `str.strip()`: drop leading and trailing whitespace. -/
def pyStrip (s : String) : String :=
  String.mk (((s.data.dropWhile Char.isWhitespace).reverse.dropWhile Char.isWhitespace).reverse)

/-- The wildcard text `[[key]]`. -/
def mkToken (k : String) : String := ("[[") ++ k ++ ("]]")

/-- The warning `deblob` prints for a wildcard with no matching argument. -/
def warnNoValue (k blobStr : String) : String :=
  ("No value for [[") ++ k ++ ("]] found to replace in ") ++ blobStr

/-- The `TypeError` Python raises in `result.replace("[["+key+"]]", args[key])`
when `args[key]` is not a string. -/
def typeErrorMsg (k : String) : String :=
  ("TypeError: replace() argument 2 must be str, not the value of [[") ++ k ++ ("]]")

/-- The substitution loop of `deblob` (lines 444-451 of `run.py`): for
each key found in the blob text, in order, warn and skip if the key is
absent from `args`, substitute all occurrences of its token if the
value is a string, and raise (modelled as `Except.error`) if the value
is present but not a string.  Returns the final text and the warnings
in emission order. -/
def substLoop {F : Type} (args : Assignment F) (blobStr : String) :
    List String → String → List String → Except String (String × List String)
  | [], result, warns => .ok (result, warns)
  | k :: ks, result, warns =>
    match alookup args k with
    | none => substLoop args blobStr ks result (warns ++ [warnNoValue k blobStr])
    | some (.vstr v) => substLoop args blobStr ks (replaceAll result (mkToken k) v) warns
    | some _ => .error (typeErrorMsg k)

/-- `deblob(blob, args)`: `None` resolves to `None`; a callable is
first applied to `args`; the result is converted with `str()`; then
every `[[key]]` wildcard is substituted.  Returns the resolved value
(`none` exactly for the `None` blob) together with the warnings
emitted, or an error when a substitution hits a non-string argument. -/
def deblob {F : Type} (app : F → Assignment F → Value F) (blob : Value F)
    (args : Assignment F) : Except String (Option String × List String) :=
  match blob with
  | .vnone => .ok (none, [])
  | b0 =>
    let b := match b0 with | .vfun f => app f args | other => other
    let s := strOfValue b
    match substLoop args s (findTokensStr s) s [] with
    | .error e => .error e
    | .ok (r, w) => .ok (some r, w)

/-- The value stored back into the dictionary by `args[key] = deblob(val, args)`:
a resolved string, or `None` when the blob was `None`. -/
def optValue {F : Type} : Option String → Value F
  | some s => .vstr s
  | none => .vnone

/-- Whether a value is a Python `str`. -/
def isVstr {F : Type} : Value F → Bool
  | .vstr _ => true
  | _ => false

/-- Whether a value is one that phase-2 resolution can have produced:
a resolved string or `None`. -/
def isResolved {F : Type} : Value F → Bool
  | .vstr _ => true
  | .vnone => true
  | _ => false

/-- `ks.all`: every key of `ks` that is present in `args` is bound to a
string (the situation in which `deblob` cannot raise). -/
def presentAreStrings {F : Type} (args : Assignment F) (ks : List String) : Bool :=
  ks.all fun k =>
    match alookup args k with
    | some v => isVstr v
    | none => true

/-- Every key of `ks` is absent from `args`. -/
def allAbsent {F : Type} (args : Assignment F) (ks : List String) : Bool :=
  ks.all fun k => (alookup args k).isNone

/-- The pure substitution effect of `deblob`'s loop: fold over the found
keys, replacing the tokens of present (string-valued) keys and leaving
the text unchanged at absent keys. -/
def applySubsts {F : Type} (args : Assignment F) (ks : List String) (r : String) : String :=
  ks.foldl
    (fun acc k =>
      match alookup args k with
      | some (.vstr v) => replaceAll acc (mkToken k) v
      | _ => acc)
    r

/-- The resolution loop of `add` (lines 223-224 of `run.py`):
`for key, val in args.items(): args[key] = deblob(val, args)`.
`acc` is the already-resolved front of the dictionary, `rest` the part
still raw; each step resolves the next key against the current full
dictionary (resolved front, raw key itself, raw tail) and stores the
result in place.  Warnings accumulate in emission order. -/
def resolveArgsAux {F : Type} (app : F → Assignment F → Value F) :
    Assignment F → Assignment F → Except String (Assignment F × List String)
  | acc, [] => .ok (acc, [])
  | acc, (k, v) :: rest =>
    match deblob app v (acc ++ (k, v) :: rest) with
    | .error e => .error e
    | .ok (r, w1) =>
      match resolveArgsAux app (acc ++ [(k, optValue r)]) rest with
      | .error e => .error e
      | .ok (fin, w2) => .ok (fin, w1 ++ w2)

/-- Phase-2 resolution of one raw assignment, in declaration order. -/
def resolveArgs {F : Type} (app : F → Assignment F → Value F) (args : Assignment F) :
    Except String (Assignment F × List String) :=
  resolveArgsAux app [] args

/-- Resolution of a leading segment of the dictionary while the raw
suffix `suffix` stays in place behind it: the specification-side
decomposition of `resolveArgsAux` used to express what the loop has
computed when it reaches a given key. -/
def resolveLeading {F : Type} (app : F → Assignment F → Value F) (suffix : Assignment F) :
    Assignment F → Assignment F → Except String (Assignment F × List String)
  | acc, [] => .ok (acc, [])
  | acc, (k, v) :: rest =>
    match deblob app v (acc ++ (k, v) :: (rest ++ suffix)) with
    | .error e => .error e
    | .ok (r, w1) =>
      match resolveLeading app suffix (acc ++ [(k, optValue r)]) rest with
      | .error e => .error e
      | .ok (acc2, w2) => .ok (acc2, w1 ++ w2)

/-- `itertools.product`: the cartesian product of a list of lists, the
rightmost factor varying fastest (lexicographic over the given lists). -/
def listProduct {α : Type} : List (List α) → List (List α)
  | [] => [[]]
  | l :: ls => l.flatMap fun x => (listProduct ls).map fun t => x :: t

/-- One entry of `arguments_descr`: a single value or a list of values
(the `isinstance(v, list)` distinction in `add`). -/
inductive ArgEntry (F : Type) where
  | single : Value F → ArgEntry F
  | list : List (Value F) → ArgEntry F

/-- `v if isinstance(v, list) else [v]`. -/
def normalizeEntry {F : Type} : ArgEntry F → List (Value F)
  | .single v => [v]
  | .list vs => vs

/-- Lines 210-217 of `run.py`: normalize every entry to a list and form
one raw assignment (`dict(zip(keys, vals))`) per element of the
cartesian product of the value lists, in key-declaration order. -/
def argumentsSet {F : Type} (descr : List (String × ArgEntry F)) : List (Assignment F) :=
  (listProduct (descr.map fun p => normalizeEntry p.2)).map fun vals =>
    (descr.map Prod.fst).zip vals

/-- The result of `subprocess.run(command, shell=True, ...)`: the
command (`res.args`), exit code, and captured output channels. -/
structure ExecResult where
  args : String
  returncode : Int
  stdout : String
  stderr : String
deriving DecidableEq, Repr

/-- The `stdout_mod` parameter: the default `_identity`, a one-argument
transform, or a two-argument transform also receiving the process
result (`len(signature(mod).parameters)` dispatch).  Python compares
the function to `_identity` by identity, which the `identity`
constructor mirrors. -/
inductive StdoutMod (F : Type) where
  | identity : StdoutMod F
  | unary : (String → Value F) → StdoutMod F
  | binary : (String → ExecResult → Value F) → StdoutMod F

/-- The `_Run` namedtuple: one fully resolved run descriptor.  `name`
is `Option String` because `deblob` yields `None` for a `None` blob. -/
structure RunDesc (F : Type) where
  name : Option String
  command : Option String
  args : Assignment F
  createsFile : Option String
  stdoutFile : Option String
  stdoutMod : StdoutMod F
  stdoutRes : Value F
  headerString : Option String
  headerCommand : Option String
  headerMod : Option String → Option String
  allowedReturnCodes : List Int
  isSelected : Bool

/-- The file system at declaration time: the set of existing paths. -/
abbrev FS := List String

/-- The mutable module state `_State` (the parts the claims concern):
per-name run lists and `[done, skipped]` counters, the active group,
and the group-membership lists. -/
structure RegState (F : Type) where
  runsByName : List (Option String × List (RunDesc F))
  countsByName : List (Option String × (Nat × Nat))
  group : String
  groups : List (String × List (Option String))

/-- `_State.__init__`. -/
def initRegState {F : Type} : RegState F :=
  { runsByName := [], countsByName := [],
    group := ("ungrouped"), groups := [(("ungrouped"), [])] }

/-- `group(group_name)`: set the active group, creating its (empty)
membership list if new. -/
def groupCmd {F : Type} (st : RegState F) (g : String) : RegState F :=
  let st1 : RegState F := { st with group := g }
  if (alookup st1.groups g).isNone then
    { st1 with groups := st1.groups ++ [(g, [])] }
  else st1

/-- `_is_selected(name)`: the name is given as an invocation parameter,
or some group given as an invocation parameter contains it (`None`
never occurs among the string parameters). -/
def isSelected (argv : List String) (groups : List (String × List (Option String)))
    (name : Option String) : Bool :=
  (match name with
   | some s => argv.contains s
   | none => false)
  || groups.any fun gl => argv.contains gl.1 && gl.2.contains name

/-- `_is_skipped(run)`: the `creates_file` or `stdout_file` path exists. -/
def isSkipped {F : Type} (fs : FS) (run : RunDesc F) : Bool :=
  (match run.createsFile with
   | some p => fs.contains p
   | none => false)
  || (match run.stdoutFile with
      | some p => fs.contains p
      | none => false)

/-- `_add_run(run)`: create the per-name entries when the name is new,
bump the done/skipped counter, and append the run to its per-name list
iff it is selected and not skipped. -/
def addRun {F : Type} (fs : FS) (st : RegState F) (run : RunDesc F) : RegState F :=
  let st1 : RegState F :=
    if (alookup st.runsByName run.name).isNone then
      { st with runsByName := st.runsByName ++ [(run.name, [])],
                countsByName := st.countsByName ++ [(run.name, (0, 0))] }
    else st
  let st2 : RegState F :=
    if isSkipped fs run then
      { st1 with countsByName := amodify st1.countsByName run.name fun c => (c.1, c.2 + 1) }
    else
      { st1 with countsByName := amodify st1.countsByName run.name fun c => (c.1 + 1, c.2) }
  if run.isSelected && !isSkipped fs run then
    { st2 with runsByName := amodify st2.runsByName run.name fun rs => rs ++ [run] }
  else st2

/-- The parameters of one `add(...)` call. -/
structure AddParams (F : Type) where
  name : Value F
  command : Value F
  argumentsDescr : List (String × ArgEntry F)
  createsFile : Value F := .vnone
  stdoutFile : Value F := .vnone
  stdoutMod : StdoutMod F := .identity
  stdoutRes : Value F := .vnone
  headerString : Value F := .vnone
  headerCommand : Value F := .vnone
  headerMod : Option String → Option String := fun h => h
  returnString : Value F := .vnone
  allowedReturnCodes : List Int := [0]
  combinationsFilter : Assignment F → Bool := fun _ => true

/-- The body of `add`'s loop for one raw assignment that passed the
filter (lines 223-246): resolve the arguments in place, resolve the
name, append the name to the active group if new, build the `_Run`
(resolving each blob field), register it, and compute the
`return_string` entry when that parameter was given. -/
def processCombo {F : Type} (app : F → Assignment F → Value F) (p : AddParams F)
    (fs : FS) (argv : List String) (st : RegState F) (args0 : Assignment F) :
    Except String (RegState F × RunDesc F × List (Option String)) := do
  let (args, _w) ← resolveArgs app args0
  let (realName, _w1) ← deblob app p.name args
  let st1 : RegState F :=
    if (alookupD st.groups st.group []).contains realName then st
    else { st with groups := amodify st.groups st.group fun l => l ++ [realName] }
  let (cmd, _w2) ← deblob app p.command args
  let (crf, _w3) ← deblob app p.createsFile args
  let (sof, _w4) ← deblob app p.stdoutFile args
  let (hs, _w5) ← deblob app p.headerString args
  let (hc, _w6) ← deblob app p.headerCommand args
  let run : RunDesc F :=
    { name := realName, command := cmd, args := args,
      createsFile := crf, stdoutFile := sof,
      stdoutMod := p.stdoutMod, stdoutRes := p.stdoutRes,
      headerString := hs, headerCommand := hc, headerMod := p.headerMod,
      allowedReturnCodes := p.allowedReturnCodes,
      isSelected := isSelected argv st1.groups realName }
  let st2 := addRun fs st1 run
  let rets ←
    match p.returnString with
    | .vnone => pure ([] : List (Option String))
    | rs => do
      let (r, _w7) ← deblob app rs args
      pure [r]
  pure (st2, run, rets)

/-- `add`'s loop over the raw assignments: skip a combination entirely
when the filter rejects it (before any resolution), otherwise process
it; collects the created run descriptors and `return_string` entries
in order. -/
def addLoop {F : Type} (app : F → Assignment F → Value F) (p : AddParams F)
    (fs : FS) (argv : List String) :
    List (Assignment F) → RegState F →
    Except String (RegState F × List (RunDesc F) × List (Option String))
  | [], st => .ok (st, [], [])
  | combo :: rest, st =>
    if p.combinationsFilter combo then
      match processCombo app p fs argv st combo with
      | .error e => .error e
      | .ok (st2, run, rets1) =>
        match addLoop app p fs argv rest st2 with
        | .error e => .error e
        | .ok (st3, runs, rets) => .ok (st3, run :: runs, rets1 ++ rets)
    else addLoop app p fs argv rest st

/-- `add(...)`: generate the raw assignments, run the loop, and return
the collected `return_string` values when `return_string` was given,
`None` otherwise (lines 248-249). -/
def addModel {F : Type} (app : F → Assignment F → Value F) (p : AddParams F)
    (fs : FS) (argv : List String) (st : RegState F) :
    Except String (RegState F × List (RunDesc F) × Option (List (Option String))) :=
  match addLoop app p fs argv (argumentsSet p.argumentsDescr) st with
  | .error e => .error e
  | .ok (st2, runs, rets) =>
    .ok (st2, runs,
      match p.returnString with
      | .vnone => none
      | _ => some rets)

/-- Whether an `Except` computation succeeded. -/
def exceptIsOk {ε α : Type} : Except ε α → Bool
  | .ok _ => true
  | .error _ => false

/-- The value `add` returns (observation used to state claims without
comparing whole states): `none` also stands for an exception. -/
def addRet {F : Type} (app : F → Assignment F → Value F) (p : AddParams F)
    (fs : FS) (argv : List String) (st : RegState F) : Option (List (Option String)) :=
  match addModel app p fs argv st with
  | .ok (_, _, r) => r
  | .error _ => none

/-- The names of the run descriptors one `add` call created, in order. -/
def addNames {F : Type} (app : F → Assignment F → Value F) (p : AddParams F)
    (fs : FS) (argv : List String) (st : RegState F) : List (Option String) :=
  match addModel app p fs argv st with
  | .ok (_, runs, _) => runs.map fun r => r.name
  | .error _ => []

/-- How many run descriptors one `add` call created. -/
def addRunsCount {F : Type} (app : F → Assignment F → Value F) (p : AddParams F)
    (fs : FS) (argv : List String) (st : RegState F) : Option Nat :=
  match addModel app p fs argv st with
  | .ok (_, runs, _) => some runs.length
  | .error _ => none

/-- The state after one successful `add` call (used to chain calls). -/
def addState {F : Type} (app : F → Assignment F → Value F) (p : AddParams F)
    (fs : FS) (argv : List String) (st : RegState F) : RegState F :=
  match addModel app p fs argv st with
  | .ok (st2, _, _) => st2
  | .error _ => st

/-- `is_selected` of the first run descriptor an `add` call created. -/
def firstRunSel {F : Type} (app : F → Assignment F → Value F) (p : AddParams F)
    (fs : FS) (argv : List String) (st : RegState F) : Option Bool :=
  match addModel app p fs argv st with
  | .ok (_, r :: _, _) => some r.isSelected
  | _ => none

/-- `print(output, ...)` on the value reaching the final write: Python
prints `None` as the text `None`. -/
def printStr : Option String → String
  | some s => s
  | none => ("None")

/-- The warning of lines 463-471: unexpected return code, including the
command (`res.args`), the code, and the stripped error text. -/
def returnCodeWarning (res : ExecResult) : String :=
  ("unexpected return code (") ++ toString res.returncode ++ (") for command: ")
    ++ res.args ++ ("\n") ++ pyStrip res.stderr ++ ("")

/-- Lines 496-505 of `_run_run`: strip the captured stdout, apply
`stdout_mod` (one- or two-argument form), and when the transform is
non-default bind the synthetic `stdout` argument and resolve the
transform's result as a blob; then, when `stdout_res` is given, rebind
`stdout` to the current output and resolve `stdout_res` as a blob.
Returns the text of the appended line together with the argument
assignment as it stands after these steps (`run.args` is mutated in
place in Python). -/
def outputStage {F : Type} (app : F → Assignment F → Value F) (run : RunDesc F)
    (res : ExecResult) : Except String (String × Assignment F) := do
  let stdout := pyStrip res.stdout
  let output0 : Value F :=
    match run.stdoutMod with
    | .identity => .vstr stdout
    | .unary f => f stdout
    | .binary f => f stdout res
  let step1 : Option String × Assignment F ←
    match run.stdoutMod with
    | .identity => pure (some stdout, run.args)
    | _ => do
      let a := aupdate run.args ("stdout") (.vstr stdout)
      let (r, _w) ← deblob app output0 a
      pure (r, a)
  let (output1, args1) := step1
  let step2 : Option String × Assignment F ←
    match run.stdoutRes with
    | .vnone => pure (output1, args1)
    | resBlob => do
      let a := aupdate args1 ("stdout") (optValue output1)
      let (r, _w) ← deblob app resBlob a
      pure (r, a)
  let (output2, args2) := step2
  pure (printStr output2, args2)

/-- The observable outcome of the sequential part of `_run_run`
(return-code policy and output computation; the file write itself is
the concurrent part, modelled separately). -/
inductive RunOutcome (F : Type) where
  | warned : String → RunOutcome F
  | noOutput : RunOutcome F
  | wrote : String → String → Assignment F → RunOutcome F
  | failed : String → RunOutcome F
deriving DecidableEq

/-- `_run_run(run)` given the process result `res`: abort with a warning
when the return code is outside a non-empty allowed set; stop silently
when no `stdout_file` is configured; otherwise compute the line that is
appended to `stdout_file`. -/
def runRunModel {F : Type} (app : F → Assignment F → Value F) (run : RunDesc F)
    (res : ExecResult) : RunOutcome F :=
  if !(run.allowedReturnCodes.contains res.returncode)
      && !(run.allowedReturnCodes.isEmpty) then
    .warned (returnCodeWarning res)
  else
    match run.stdoutFile with
    | none => .noOutput
    | some filename =>
      match outputStage app run res with
      | .error e => .failed e
      | .ok (line, argsAfter) => .wrote filename line argsAfter

/-- Whether the outcome is the return-code warning abort. -/
def aborted {F : Type} : RunOutcome F → Bool
  | .warned _ => true
  | _ => false

/-- Program counter of one worker executing the file-output section of
`_run_run` (lines 482-509) for a previously-absent file with a header
configured: unlocked existence check, header computation (where a
command-derived header runs its command), lock-protected re-check and
header write, then lock-protected append. -/
inductive WPC where
  | outerCheck
  | runHeaderCmd
  | lock1
  | check1
  | write1
  | rel1
  | lock2
  | append
  | rel2
  | done
deriving DecidableEq, Repr

/-- Shared state of `k` workers racing on one output file: each
worker's program counter, the file (`none` = does not exist), the
`SoftFileLock` on `filename + ".lock"` (one lock, used by both the
header section and the append), and how many times the header source
was computed (= header-command executions when the header is
command-derived). -/
structure HState (k : Nat) where
  pc : Fin k → WPC
  file : Option (List String)
  lock : Option (Fin k)
  headerExecs : Nat

/-- All workers at the unlocked existence check, no file, lock free. -/
def initState (k : Nat) : HState k :=
  { pc := fun _ => .outerCheck, file := none, lock := none, headerExecs := 0 }

/-- Replace worker `i`'s program counter. -/
def setPC {k : Nat} (s : HState k) (i : Fin k) (p : WPC) : HState k :=
  { s with pc := fun j => if j = i then p else s.pc j }

/-- One atomic action of worker `i` (a no-op when the worker is blocked
on the lock or finished).  `header` is the final header line (for a
command-derived header, the stripped, transformed command output);
`out i` is the line worker `i` appends. -/
def step {k : Nat} (header : String) (out : Fin k → String) (s : HState k) (i : Fin k) :
    HState k :=
  match s.pc i with
  | .outerCheck =>
    if s.file.isSome then setPC s i .lock2 else setPC s i .runHeaderCmd
  | .runHeaderCmd => { setPC s i .lock1 with headerExecs := s.headerExecs + 1 }
  | .lock1 =>
    match s.lock with
    | none => { setPC s i .check1 with lock := some i }
    | some _ => s
  | .check1 =>
    if s.file.isSome then setPC s i .rel1 else setPC s i .write1
  | .write1 => { setPC s i .rel1 with file := some [header] }
  | .rel1 => { setPC s i .lock2 with lock := none }
  | .lock2 =>
    match s.lock with
    | none => { setPC s i .append with lock := some i }
    | some _ => s
  | .append => { setPC s i .rel2 with file := some (s.file.getD [] ++ [out i]) }
  | .rel2 => { setPC s i .done with lock := none }
  | .done => s

/-- Run a schedule: the sequence of worker ids chosen by the OS. -/
def runSched {k : Nat} (header : String) (out : Fin k → String)
    (s : HState k) (sched : List (Fin k)) : HState k :=
  sched.foldl (step header out) s

/-- Whether a program counter is inside a lock-protected section. -/
def holding : WPC → Bool
  | .check1 => true
  | .write1 => true
  | .rel1 => true
  | .append => true
  | .rel2 => true
  | _ => false

/-- Whether a worker has already performed its append. -/
def appended : WPC → Bool
  | .rel2 => true
  | .done => true
  | _ => false

/-- The contents invariant: while the file does not exist nobody has
appended; once it exists it is the header followed by the lines of
exactly the workers that have appended, each once. -/
def ContentInv {k : Nat} (header : String) (out : Fin k → String) (s : HState k) : Prop :=
  match s.file with
  | none => ∀ i, appended (s.pc i) = false
  | some ls => ∃ l : List (Fin k), l.Nodup ∧
      (∀ i, i ∈ l ↔ appended (s.pc i) = true) ∧ ls = header :: l.map out

/-- Reachability invariant of the racing workers. -/
structure Inv {k : Nat} (header : String) (out : Fin k → String) (s : HState k) : Prop where
  lockOwn : ∀ i, s.lock = some i → holding (s.pc i) = true
  ownLock : ∀ i, holding (s.pc i) = true → s.lock = some i
  writeAbs : ∀ i, s.pc i = .write1 → s.file = none
  hasFile : ∀ i, s.pc i = .rel1 ∨ s.pc i = .lock2 ∨ s.pc i = .append → s.file.isSome = true
  hdrCnt : ∀ i, s.pc i = .lock1 ∨ s.pc i = .check1 ∨ s.pc i = .write1 → 1 ≤ s.headerExecs
  fileHdr : s.file.isSome = true → 1 ≤ s.headerExecs
  content : ContentInv header out s

/-! Concrete instances used to witness the general theorems and to
exhibit counterexamples.  `Unit` instantiates the defunctionalized
callable type where no callable blob is involved. -/

/-- A trivial interpretation of callable codes (no callables occur in
the concrete runs below). -/
def app0 : Unit → Assignment Unit → Value Unit := fun _ _ => Value.vnone

/-- An `add` call with a two-element value list containing the same
value twice (no deduplication) and a singleton scalar. -/
def pC1 : AddParams Unit :=
  { name := .vstr ("exp"), command := .vstr ("cmd"),
    argumentsDescr := [(("a"), .list [.vint 1, .vint 1]), (("b"), .single (.vstr ("x")))] }

/-- An `add` call with `return_string="r[[a]]"`. -/
def pC6 : AddParams Unit :=
  { name := .vstr ("exp"), command := .vstr ("cmd"),
    argumentsDescr := [(("a"), .list [.vint 1])],
    returnString := .vstr ("r[[a]]") }

/-- An `add` call with the default `return_string=None`. -/
def pC6b : AddParams Unit :=
  { name := .vstr ("exp"), command := .vstr ("cmd"),
    argumentsDescr := [(("a"), .list [.vint 1])] }

/-- An `add` call declaring experiment `n`. -/
def pC7 : AddParams Unit :=
  { name := .vstr ("n"), command := .vstr ("cmd"), argumentsDescr := [] }

/-- The registry state after `group("g1"); add(name="n", ...);
group("g2")` with invocation parameters `["g1"]`: group `g1` contains
`n` and the active group is `g2`. -/
def stC7 : RegState Unit :=
  groupCmd (addState app0 pC7 [] [("g1")] (groupCmd initRegState ("g1"))) ("g2")

/-- The assignment `{a: "X"}`. -/
def argsC9 : Assignment Unit := [(("a"), .vstr ("X"))]

/-- A run with a configured `stdout_res` blob (its `args` get mutated
by `_run_run`). -/
def runC8 : RunDesc Unit :=
  { name := some ("e"), command := some ("cmd"),
    args := [(("a"), .vstr ("1"))],
    createsFile := none, stdoutFile := some ("o.txt"),
    stdoutMod := .identity, stdoutRes := .vstr ("[[stdout]]"),
    headerString := none, headerCommand := none, headerMod := fun h => h,
    allowedReturnCodes := [0], isSelected := true }

/-- The same run with the default `stdout_mod` and no `stdout_res`. -/
def runC8id : RunDesc Unit :=
  { runC8 with stdoutRes := .vnone }

/-- A run with `allowed_return_codes=[0]` and a `stdout_file`. -/
def runC4 : RunDesc Unit :=
  { runC8id with allowedReturnCodes := [0] }

/-- A selected run whose `stdout_file` already exists on disk. -/
def runC5 : RunDesc Unit :=
  { runC8id with stdoutFile := some ("out.txt"), isSelected := true }

/-- A process result with exit code 1. -/
def resC4 : ExecResult :=
  { args := ("cmd"), returncode := 1, stdout := (" out "), stderr := (" boom ") }

/-- A process result with exit code 0. -/
def resC8 : ExecResult :=
  { args := ("cmd"), returncode := 0, stdout := (" out "), stderr := ("") }

/-- The output lines of two racing workers. -/
def outC3 : Fin 2 → String := fun i => if i = 0 then ("line0") else ("line1")

/-- A schedule in which worker 0 runs to completion and then worker 1
runs to completion. -/
def schedC3a : List (Fin 2) :=
  [0, 0, 0, 0, 0, 0, 0, 0, 0, 1, 1, 1, 1]

/-- A schedule in which both workers pass the unlocked existence check
before either takes the lock: both compute the header (both execute a
command-derived header command), then worker 0 wins the lock and writes
the header, worker 1 re-checks under the lock and skips, and both
append. -/
def schedC3b : List (Fin 2) :=
  [0, 1, 0, 1, 0, 0, 0, 0, 1, 1, 1, 0, 0, 0, 1, 1, 1]

/-- Read a tuple of per-list indices back into a tuple of values
(specification-side decoding used to state the lexicographic-order
property of `itertools.product`). -/
def decodeIdx {α : Type} (d : α) : List (List α) → List Nat → List α
  | [], _ => []
  | _ :: _, [] => []
  | l :: ls, i :: is => l.getD i d :: decodeIdx d ls is

/-! Association-list lemmas. -/

theorem alookup_append_single {κ β : Type} [DecidableEq κ] (l : List (κ × β)) (key nm : κ)
    (x : β) :
    alookup (l ++ [(key, x)]) nm =
      match alookup l nm with
      | some v => some v
      | none => if key = nm then some x else none := by
  induction l with
  | nil => simp [alookup]
  | cons hd tl ih =>
    by_cases h : hd.1 = nm
    · simp [alookup, h]
    · simpa [alookup, h] using ih

theorem alookup_amodify_self {κ β : Type} [DecidableEq κ] (l : List (κ × β)) (key : κ)
    (f : β → β) :
    alookup (amodify l key f) key = (alookup l key).map f := by
  induction l with
  | nil => simp [alookup, amodify]
  | cons hd tl ih =>
    by_cases h : hd.1 = key
    · simp [alookup, amodify, h]
    · simpa [alookup, amodify, h] using ih

theorem alookup_amodify_ne {κ β : Type} [DecidableEq κ] (l : List (κ × β)) (key nm : κ)
    (f : β → β) (h : nm ≠ key) :
    alookup (amodify l key f) nm = alookup l nm := by
  induction l with
  | nil => simp [alookup, amodify]
  | cons hd tl ih =>
    by_cases h1 : hd.1 = key
    · have h2 : hd.1 ≠ nm := by rw [h1]; exact fun hc => h hc.symm
      simp [alookup, amodify, h1, h2, Ne.symm h]
    · by_cases h2 : hd.1 = nm
      · simp [alookup, amodify, h1, h2, h]
      · simpa [alookup, amodify, h1, h2] using ih

/-- C4: for every executed run, an empty allowed-return-code set accepts
every exit code; a non-empty set rejects codes outside it with a warning
containing the command, the code, and the stripped error text, and no
output is written; and output is written only when the exit code is
accepted. -/
theorem C4_return_code_policy {F : Type} (app : F → Assignment F → Value F)
    (run : RunDesc F) (res : ExecResult) :
    (run.allowedReturnCodes = [] → aborted (runRunModel app run res) = false)
    ∧ (res.returncode ∈ run.allowedReturnCodes → aborted (runRunModel app run res) = false)
    ∧ (run.allowedReturnCodes ≠ [] → res.returncode ∉ run.allowedReturnCodes →
        runRunModel app run res = .warned (returnCodeWarning res))
    ∧ (returnCodeWarning res =
        ("unexpected return code (") ++ toString res.returncode ++ (") for command: ")
          ++ res.args ++ ("\n") ++ pyStrip res.stderr)
    ∧ (∀ f l a, runRunModel app run res = .wrote f l a →
        run.allowedReturnCodes = [] ∨ res.returncode ∈ run.allowedReturnCodes) := by
  refine ⟨?_, ?_, ?_, ?_, ?_⟩
  · intro h
    simp only [runRunModel, h]
    cases hso : run.stdoutFile <;> simp [aborted]
    cases houtput : outputStage app run res <;> simp [aborted]
  · intro h
    simp only [runRunModel]
    have : run.allowedReturnCodes.contains res.returncode = true := by simpa using h
    simp only [this]
    cases hso : run.stdoutFile <;> simp [aborted]
    cases houtput : outputStage app run res <;> simp [aborted]
  · intro h1 h2
    have hc : run.allowedReturnCodes.contains res.returncode = false := by
      simpa using h2
    have he : run.allowedReturnCodes.isEmpty = false := by
      simpa using h1
    simp [runRunModel, hc, he, h2]
  · simp [returnCodeWarning]
  · intro f l a h
    by_contra hcon
    push_neg at hcon
    have hc : run.allowedReturnCodes.contains res.returncode = false := by
      simpa using hcon.2
    have he : run.allowedReturnCodes.isEmpty = false := by
      simpa using hcon.1
    simp [runRunModel, hc, he, hcon.2] at h

/-- C4 witness: a run with `allowed_return_codes=[0]` and exit code 1
ends in the return-code warning and writes nothing. -/
theorem C4_witness :
    runC4.allowedReturnCodes ≠ [] ∧ resC4.returncode ∉ runC4.allowedReturnCodes
    ∧ runRunModel app0 runC4 resC4 = .warned (returnCodeWarning resC4) := by
  refine ⟨by decide, by decide, ?_⟩
  exact (C4_return_code_policy app0 runC4 resC4).2.2.1 (by decide) (by decide)

/-- C7 counterexample: after `group("g1"); add(name="n"); group("g2")`
with invocation parameters `["g1"]`, declaring `n` again (while `g2` is
the active group) yields a descriptor with `is_selected = True`, even
though neither the name `n` nor the active group `g2` appears among the
invocation parameters — membership in the other group `g1` decides the
selection, contradicting the claim. -/
theorem C7_counterexample :
    stC7.group = ("g2")
    ∧ (alookupD stC7.groups ("g1") []).contains (some ("n")) = true
    ∧ (["g1"] : List String).contains ("n") = false
    ∧ (["g1"] : List String).contains ("g2") = false
    ∧ firstRunSel app0 pC7 [] [("g1")] stC7 = some true := by
  refine ⟨by decide, by decide, by decide, by decide, by decide⟩

/-- C7 (amended): a declared name is selected iff the name itself
appears among the invocation parameters, or some group whose membership
list contains the name appears among them.  Since `add` appends the
name to the active group before computing selection, selection through
the active group is a special case, but membership in any other group
containing the name also grants selection. -/
theorem C7_selection (argv : List String) (groups : List (String × List (Option String)))
    (name : Option String) :
    (isSelected argv groups name = true ↔
      ((∃ s, name = some s ∧ s ∈ argv)
        ∨ ∃ g l, (g, l) ∈ groups ∧ g ∈ argv ∧ name ∈ l))
    ∧ (∀ g l, (g, l) ∈ groups → g ∈ argv → name ∈ l →
        isSelected argv groups name = true) := by
  constructor
  · cases name with
    | none =>
      simp only [isSelected, Bool.false_or, List.any_eq_true]
      constructor
      · rintro ⟨gl, hgl, hb⟩
        exact Or.inr ⟨gl.1, gl.2, by simpa using hgl, by simpa using hb⟩
      · rintro (⟨s, hs, _⟩ | ⟨g, l, hgl, hg, hn⟩)
        · exact absurd hs (by simp)
        · exact ⟨(g, l), hgl, by simpa using ⟨hg, hn⟩⟩
    | some s =>
      simp only [isSelected, Bool.or_eq_true, List.any_eq_true]
      constructor
      · rintro (hs | ⟨gl, hgl, hb⟩)
        · exact Or.inl ⟨s, rfl, by simpa using hs⟩
        · exact Or.inr ⟨gl.1, gl.2, by simpa using hgl, by simpa using hb⟩
      · rintro (⟨t, ht, hmem⟩ | ⟨g, l, hgl, hg, hn⟩)
        · cases ht; exact Or.inl (by simpa using hmem)
        · exact Or.inr ⟨(g, l), hgl, by simpa using ⟨hg, hn⟩⟩
  · intro g l hgl hg hn
    cases name with
    | none =>
      simp only [isSelected, Bool.false_or, List.any_eq_true]
      exact ⟨(g, l), hgl, by simpa using ⟨hg, hn⟩⟩
    | some s =>
      simp only [isSelected, Bool.or_eq_true, List.any_eq_true]
      exact Or.inr ⟨(g, l), hgl, by simpa using ⟨hg, hn⟩⟩

/-- C7 witness: selection through the active group (the group contains
the just-declared name and appears among the invocation parameters). -/
theorem C7_witness :
    ((("g2"), [some ("n")]) ∈ ([(("g2"), [some ("n")])] : List (String × List (Option String)))
      ∧ ("g2") ∈ (["g2"] : List String) ∧ (some ("n")) ∈ [some ("n")])
    ∧ isSelected [("g2")] [(("g2"), [some ("n")])] (some ("n")) = true := by
  refine ⟨⟨by decide, by decide, by decide⟩, ?_⟩
  exact (C7_selection [("g2")] [(("g2"), [some ("n")])] (some ("n"))).2 ("g2")
    [some ("n")] (by decide) (by decide) (by decide)

theorem addRun_runs_lookup {F : Type} (fs : FS) (st : RegState F) (run : RunDesc F) :
    alookup (addRun fs st run).runsByName run.name =
      some (alookupD st.runsByName run.name []
        ++ (if run.isSelected && !isSkipped fs run then [run] else [])) := by
  by_cases habs : (alookup st.runsByName run.name).isNone = true
  · have hnone : alookup st.runsByName run.name = none := by
      simpa [Option.isNone_iff_eq_none] using habs
    by_cases hsk : isSkipped fs run = true <;>
      by_cases hsel : run.isSelected = true <;>
        simp [addRun, habs, hsel, hsk, alookup_amodify_self, alookup_append_single,
          hnone, alookupD]
  · obtain ⟨x, hx⟩ : ∃ x, alookup st.runsByName run.name = some x := by
      cases h : alookup st.runsByName run.name with
      | none => rw [h] at habs; simp at habs
      | some x => exact ⟨x, rfl⟩
    by_cases hsk : isSkipped fs run = true <;>
      by_cases hsel : run.isSelected = true <;>
        simp [addRun, habs, hsel, hsk, alookup_amodify_self, hx, alookupD]

theorem addRun_counts_lookup {F : Type} (fs : FS) (st : RegState F) (run : RunDesc F)
    (hsync : (alookup st.runsByName run.name).isNone = true
      ∨ (alookup st.countsByName run.name).isSome = true) :
    alookup (addRun fs st run).countsByName run.name =
      some (if isSkipped fs run then
              ((alookupD st.countsByName run.name (0, 0)).1,
                (alookupD st.countsByName run.name (0, 0)).2 + 1)
            else
              ((alookupD st.countsByName run.name (0, 0)).1 + 1,
                (alookupD st.countsByName run.name (0, 0)).2)) := by
  by_cases habs : (alookup st.runsByName run.name).isNone = true
  · cases hc : alookup st.countsByName run.name with
    | none =>
      by_cases hsk : isSkipped fs run = true <;>
        by_cases hsel : run.isSelected = true <;>
          simp [addRun, habs, hsk, hsel, alookup_amodify_self, alookup_append_single,
            hc, alookupD]
    | some c =>
      by_cases hsk : isSkipped fs run = true <;>
        by_cases hsel : run.isSelected = true <;>
          simp [addRun, habs, hsk, hsel, alookup_amodify_self, alookup_append_single,
            hc, alookupD]
  · obtain ⟨c, hc⟩ : ∃ c, alookup st.countsByName run.name = some c := by
      rcases hsync with h | h
      · exact absurd h habs
      · cases h2 : alookup st.countsByName run.name with
        | none => rw [h2] at h; simp at h
        | some c => exact ⟨c, rfl⟩
    by_cases hsk : isSkipped fs run = true <;>
      by_cases hsel : run.isSelected = true <;>
        simp [addRun, habs, hsk, hsel, alookup_amodify_self, hc, alookupD]

theorem addRun_runs_lookup_ne {F : Type} (fs : FS) (st : RegState F) (run : RunDesc F)
    (nm : Option String) (hnm : nm ≠ run.name) :
    alookup (addRun fs st run).runsByName nm = alookup st.runsByName nm := by
  have hsingle : alookup (st.runsByName ++ [(run.name, ([] : List (RunDesc F)))]) nm
      = alookup st.runsByName nm := by
    rw [alookup_append_single]
    cases h : alookup st.runsByName nm
    · simp [Ne.symm hnm]
    · simp

  by_cases habs : (alookup st.runsByName run.name).isNone = true
  · by_cases hsk : isSkipped fs run = true <;>
      by_cases hsel : run.isSelected = true <;>
        simp [addRun, habs, hsk, hsel, alookup_amodify_ne _ _ _ _ hnm, hsingle]
  · by_cases hsk : isSkipped fs run = true <;>
      by_cases hsel : run.isSelected = true <;>
        simp [addRun, habs, hsk, hsel, alookup_amodify_ne _ _ _ _ hnm]

/-- C5: a declared run descriptor is appended to the registry's
per-name run list iff it is selected and not skipped; a descriptor
whose `creates_file` or `stdout_file` exists on disk at declaration
time is skipped, so its skipped counter is bumped and it is never
enqueued, selection notwithstanding; the done/skipped counters are
updated for every descriptor regardless of selection; and the
"only selected and unskipped runs are listed" invariant is preserved. -/
theorem C5_registry {F : Type} (fs : FS) (st : RegState F) (run : RunDesc F) :
    (alookupD (addRun fs st run).runsByName run.name [] =
      alookupD st.runsByName run.name []
        ++ (if run.isSelected && !isSkipped fs run then [run] else []))
    ∧ ((alookup st.runsByName run.name).isNone = true
        ∨ (alookup st.countsByName run.name).isSome = true →
       alookupD (addRun fs st run).countsByName run.name (0, 0) =
         (if isSkipped fs run then
            ((alookupD st.countsByName run.name (0, 0)).1,
              (alookupD st.countsByName run.name (0, 0)).2 + 1)
          else
            ((alookupD st.countsByName run.name (0, 0)).1 + 1,
              (alookupD st.countsByName run.name (0, 0)).2)))
    ∧ (isSkipped fs run = true →
        alookupD (addRun fs st run).runsByName run.name [] =
          alookupD st.runsByName run.name [])
    ∧ (∀ p, run.stdoutFile = some p → fs.contains p = true → isSkipped fs run = true)
    ∧ (∀ p, run.createsFile = some p → fs.contains p = true → isSkipped fs run = true)
    ∧ ((∀ nm r, r ∈ alookupD st.runsByName nm [] →
          r.isSelected = true ∧ isSkipped fs r = false) →
       (∀ nm r, r ∈ alookupD (addRun fs st run).runsByName nm [] →
          r.isSelected = true ∧ isSkipped fs r = false)) := by
  refine ⟨?_, ?_, ?_, ?_, ?_, ?_⟩
  · rw [alookupD, addRun_runs_lookup]
    simp
  · intro hsync
    rw [alookupD, addRun_counts_lookup fs st run hsync]
    simp
  · intro hsk
    rw [alookupD, addRun_runs_lookup]
    simp [hsk]
  · intro p hp hfs
    simp only [isSkipped, Bool.or_eq_true]
    refine Or.inr ?_
    rw [hp]
    exact hfs
  · intro p hp hfs
    simp only [isSkipped, Bool.or_eq_true]
    refine Or.inl ?_
    rw [hp]
    exact hfs
  · intro hinv nm r hr
    by_cases hnm : nm = run.name
    · rw [hnm, alookupD, addRun_runs_lookup] at hr
      simp only [Option.getD_some, List.mem_append] at hr
      rcases hr with hr | hr
      · exact hinv run.name r hr
      · by_cases hsel : run.isSelected = true
        · by_cases hsk : isSkipped fs run = true
          · simp [hsel, hsk] at hr
          · simp only [hsel, Bool.not_eq_true] at hsk
            simp [hsel, hsk, List.mem_singleton] at hr
            subst hr
            exact ⟨hsel, hsk⟩
        · simp [hsel] at hr
    · rw [alookupD, addRun_runs_lookup_ne fs st run nm hnm] at hr
      exact hinv nm r hr

/-- C5 witness: a selected run whose `stdout_file` exists on disk is
skipped and the registry's per-name run list is unchanged by adding it. -/
theorem C5_witness :
    isSkipped [("out.txt")] runC5 = true ∧ runC5.isSelected = true
    ∧ alookupD (addRun [("out.txt")] initRegState runC5).runsByName runC5.name [] =
        alookupD (initRegState (F := Unit)).runsByName runC5.name [] := by
  refine ⟨by decide, by decide, ?_⟩
  exact (C5_registry [("out.txt")] initRegState runC5).2.2.1 (by decide)

theorem deblob_vstr {F : Type} (app : F → Assignment F → Value F) (s : String)
    (args : Assignment F) :
    deblob app (.vstr s) args =
      match substLoop args s (findTokensStr s) s [] with
      | Except.error e => Except.error e
      | Except.ok (r, w) => Except.ok (some r, w) := rfl

theorem substLoop_ok_spec {F : Type} (args : Assignment F) (blobStr : String) :
    ∀ (ks : List String) (r : String) (w : List String),
      presentAreStrings args ks = true →
      substLoop args blobStr ks r w =
        .ok (applySubsts args ks r,
          w ++ (ks.filter fun k => (alookup args k).isNone).map fun k =>
            warnNoValue k blobStr) := by
  intro ks
  induction ks with
  | nil => intro r w _; simp [substLoop, applySubsts]
  | cons k ks ih =>
    intro r w hpres
    have hpres2 : presentAreStrings args ks = true := by
      simp only [presentAreStrings, List.all_cons, Bool.and_eq_true] at hpres
      exact hpres.2
    cases hk : alookup args k with
    | none =>
      rw [show substLoop args blobStr (k :: ks) r w
          = substLoop args blobStr ks r (w ++ [warnNoValue k blobStr]) by
        simp [substLoop, hk]]
      rw [ih r (w ++ [warnNoValue k blobStr]) hpres2]
      simp [applySubsts, hk, List.filter_cons, Option.isNone_iff_eq_none.mpr hk]
    | some v =>
      have hv : isVstr v = true := by
        simp only [presentAreStrings, List.all_cons, Bool.and_eq_true] at hpres
        have := hpres.1
        rwa [hk] at this
      cases v with
      | vstr t =>
        rw [show substLoop args blobStr (k :: ks) r w
            = substLoop args blobStr ks (replaceAll r (mkToken k) t) w by
          simp [substLoop, hk]]
        rw [ih (replaceAll r (mkToken k) t) w hpres2]
        simp [applySubsts, hk, List.filter_cons]
      | vint n => simp [isVstr] at hv
      | vnone => simp [isVstr] at hv
      | vfun f => simp [isVstr] at hv

theorem applySubsts_allAbsent {F : Type} (args : Assignment F) :
    ∀ (ks : List String) (r : String), allAbsent args ks = true →
      applySubsts args ks r = r := by
  intro ks
  induction ks with
  | nil => intro r _; simp [applySubsts]
  | cons k ks ih =>
    intro r habs
    simp only [allAbsent, List.all_cons, Bool.and_eq_true] at habs
    have hk : alookup args k = none := by
      have := habs.1
      simpa [Option.isNone_iff_eq_none] using this
    have habs2 : allAbsent args ks = true := habs.2
    simp only [applySubsts, List.foldl_cons, hk]
    exact ih r habs2

theorem substLoop_error_first {F : Type} (args : Assignment F) (blobStr : String) :
    ∀ (ks1 : List String) (k : String) (ks2 : List String) (r : String)
      (w : List String) (v : Value F),
      presentAreStrings args ks1 = true →
      alookup args k = some v → isVstr v = false →
      substLoop args blobStr (ks1 ++ k :: ks2) r w = .error (typeErrorMsg k) := by
  intro ks1
  induction ks1 with
  | nil =>
    intro k ks2 r w v _ hk hv
    cases v with
    | vstr t => simp [isVstr] at hv
    | vint n => simp [substLoop, hk]
    | vnone => simp [substLoop, hk]
    | vfun f => simp [substLoop, hk]
  | cons k1 ks1 ih =>
    intro k ks2 r w v hpres hk hv
    have hpres2 : presentAreStrings args ks1 = true := by
      simp only [presentAreStrings, List.all_cons, Bool.and_eq_true] at hpres
      exact hpres.2
    cases hk1 : alookup args k1 with
    | none =>
      rw [show substLoop args blobStr ((k1 :: ks1) ++ k :: ks2) r w
          = substLoop args blobStr (ks1 ++ k :: ks2) r (w ++ [warnNoValue k1 blobStr]) by
        simp [substLoop, hk1]]
      exact ih k ks2 r (w ++ [warnNoValue k1 blobStr]) v hpres2 hk hv
    | some v1 =>
      have hv1 : isVstr v1 = true := by
        simp only [presentAreStrings, List.all_cons, Bool.and_eq_true] at hpres
        have := hpres.1
        rwa [hk1] at this
      cases v1 with
      | vstr t =>
        rw [show substLoop args blobStr ((k1 :: ks1) ++ k :: ks2) r w
            = substLoop args blobStr (ks1 ++ k :: ks2) (replaceAll r (mkToken k1) t) w by
          simp [substLoop, hk1]]
        exact ih k ks2 (replaceAll r (mkToken k1) t) w v hpres2 hk hv
      | vint n => simp [isVstr] at hv1
      | vnone => simp [isVstr] at hv1
      | vfun f => simp [isVstr] at hv1

/-- C9: blob resolution is non-fatal on unresolvable wildcards: `None`
resolves to `None` with no substitution and no warning; and for a
string blob whose present wildcard keys are all string-valued, `deblob`
succeeds, substitutes exactly the present keys (the fold leaves the
text unchanged at absent keys, so when every key is absent the text is
returned verbatim, tokens in place), and emits one warning per absent
token, in order. -/
theorem C9_unresolved_wildcards {F : Type} (app : F → Assignment F → Value F)
    (args : Assignment F) :
    (deblob app .vnone args = .ok (none, []))
    ∧ ∀ s : String, presentAreStrings args (findTokensStr s) = true →
        (deblob app (.vstr s) args =
          .ok (some (applySubsts args (findTokensStr s) s),
            ((findTokensStr s).filter fun k => (alookup args k).isNone).map fun k =>
              warnNoValue k s))
        ∧ (allAbsent args (findTokensStr s) = true →
            applySubsts args (findTokensStr s) s = s)
        ∧ (∀ k ∈ findTokensStr s, (alookup args k).isNone = true →
            warnNoValue k s ∈
              ((findTokensStr s).filter fun k => (alookup args k).isNone).map fun k =>
                warnNoValue k s) := by
  refine ⟨rfl, ?_⟩
  intro s hpres
  refine ⟨?_, ?_, ?_⟩
  · rw [deblob_vstr, substLoop_ok_spec args s (findTokensStr s) s [] hpres]
    simp
  · exact applySubsts_allAbsent args (findTokensStr s) s
  · intro k hk habs
    exact List.mem_map_of_mem _ (List.mem_filter.mpr ⟨hk, habs⟩)

/-- C9 witness: resolving `"[[a]]-[[b]]"` against `{a: "X"}` succeeds,
substitutes `a`, and warns about the absent `b`. -/
theorem C9_witness :
    presentAreStrings argsC9 (findTokensStr ("[[a]]-[[b]]")) = true
    ∧ deblob app0 (.vstr ("[[a]]-[[b]]")) argsC9 =
        .ok (some (applySubsts argsC9 (findTokensStr ("[[a]]-[[b]]")) ("[[a]]-[[b]]")),
          ((findTokensStr ("[[a]]-[[b]]")).filter fun k =>
              (alookup argsC9 k).isNone).map fun k =>
            warnNoValue k ("[[a]]-[[b]]")) := by
  refine ⟨by decide, ?_⟩
  exact ((C9_unresolved_wildcards app0 argsC9).2 ("[[a]]-[[b]]") (by decide)).1

/-- C10: `deblob`'s wildcard substitution assumes the referenced
argument is a string: as soon as the loop reaches a token whose key is
bound to a non-string value, it raises a `TypeError` (every earlier
token being absent or string-valued); in particular, during phase-2
resolution an earlier-declared key whose blob text references a
later-declared key with a raw integer value makes the whole resolution
fail instead of producing a string. -/
theorem C10_substitution_type_error {F : Type} (app : F → Assignment F → Value F) :
    (∀ (args : Assignment F) (s : String) (ks1 ks2 : List String) (k : String) (v : Value F),
      findTokensStr s = ks1 ++ k :: ks2 →
      presentAreStrings args ks1 = true →
      alookup args k = some v → isVstr v = false →
      deblob app (.vstr s) args = .error (typeErrorMsg k))
    ∧ (∀ (j k : String) (n : Int) (post : Assignment F),
      j ≠ k →
      findTokensStr (mkToken k) = [k] →
      resolveArgs app ((j, .vstr (mkToken k)) :: (k, .vint n) :: post) =
        .error (typeErrorMsg k)) := by
  constructor
  · intro args s ks1 ks2 k v htok hpres hk hv
    rw [deblob_vstr, htok,
      substLoop_error_first args s ks1 k ks2 s [] v hpres hk hv]
  · intro j k n post hjk htok
    have hdict : alookup ((j, Value.vstr (F := F) (mkToken k)) :: (k, .vint n) :: post) k
        = some (.vint n) := by
      simp [alookup, hjk]
    have herr : deblob app (.vstr (mkToken k))
        ((j, Value.vstr (F := F) (mkToken k)) :: (k, .vint n) :: post)
        = .error (typeErrorMsg k) := by
      rw [deblob_vstr, htok]
      have h2 := substLoop_error_first
        ((j, Value.vstr (F := F) (mkToken k)) :: (k, .vint n) :: post) (mkToken k)
        [] k [] (mkToken k) [] (.vint n) rfl hdict rfl
      simp only [List.nil_append] at h2
      rw [h2]
    simp only [resolveArgs, resolveArgsAux, List.nil_append, herr]

/-- C10 witness: resolving `{a: "[[b]]", b: 5}` fails with a type error
at `b`. -/
theorem C10_witness :
    (("a") : String) ≠ ("b")
    ∧ findTokensStr (mkToken ("b")) = [("b")]
    ∧ resolveArgs app0 [(("a"), .vstr (mkToken ("b"))), (("b"), .vint 5)] =
        .error (typeErrorMsg ("b")) := by
  refine ⟨by decide, by decide, ?_⟩
  exact (C10_substitution_type_error app0).2 ("a") ("b") 5 [] (by decide) (by decide)

theorem resolveLeading_resolved {F : Type} (app : F → Assignment F → Value F)
    (suffix : Assignment F) :
    ∀ (pre acc acc2 : Assignment F) (w : List String),
      (∀ q ∈ acc, isResolved q.2 = true) →
      resolveLeading app suffix acc pre = .ok (acc2, w) →
      ∀ q ∈ acc2, isResolved q.2 = true := by
  intro pre
  induction pre with
  | nil =>
    intro acc acc2 w hacc h
    simp only [resolveLeading] at h
    cases h
    exact hacc
  | cons kv pre ih =>
    intro acc acc2 w hacc h
    obtain ⟨k, v⟩ := kv
    simp only [resolveLeading] at h
    cases hd : deblob app v (acc ++ (k, v) :: (pre ++ suffix)) with
    | error e =>
      simp only [hd] at h
      exact Except.noConfusion h
    | ok rw1 =>
      obtain ⟨r, w1⟩ := rw1
      simp only [hd] at h
      cases hl : resolveLeading app suffix (acc ++ [(k, optValue r)]) pre with
      | error e =>
        simp only [hl] at h
        exact Except.noConfusion h
      | ok aw =>
        obtain ⟨acc3, w2⟩ := aw
        simp only [hl, Except.ok.injEq, Prod.mk.injEq] at h
        obtain ⟨h1, _h2⟩ := h
        subst h1
        refine ih (acc ++ [(k, optValue r)]) _ w2 ?_ hl
        intro q hq
        rcases List.mem_append.mp hq with hq | hq
        · exact hacc q hq
        · rcases List.mem_singleton.mp hq with rfl
          cases r <;> simp [optValue, isResolved]

theorem resolveArgsAux_split {F : Type} (app : F → Assignment F → Value F)
    (suffix : Assignment F) :
    ∀ (pre acc : Assignment F),
      resolveArgsAux app acc (pre ++ suffix) =
        match resolveLeading app suffix acc pre with
        | .error e => .error e
        | .ok (acc2, w) =>
          match resolveArgsAux app acc2 suffix with
          | .error e => .error e
          | .ok (fin, w2) => .ok (fin, w ++ w2) := by
  intro pre
  induction pre with
  | nil =>
    intro acc
    cases h : resolveArgsAux app acc suffix <;> simp [resolveLeading, h]
  | cons kv pre ih =>
    intro acc
    obtain ⟨k, v⟩ := kv
    simp only [List.cons_append, resolveArgsAux, resolveLeading]
    cases hd : deblob app v (acc ++ (k, v) :: (pre ++ suffix)) with
    | error e => simp only [hd]
    | ok rw1 =>
      obtain ⟨r, w1⟩ := rw1
      simp only [hd, List.append_eq]
      rw [ih (acc ++ [(k, optValue r)])]
      cases hl : resolveLeading app suffix (acc ++ [(k, optValue r)]) pre with
      | error e => simp only [hl]
      | ok aw =>
        obtain ⟨acc2, w⟩ := aw
        simp only [hl]
        cases h2 : resolveArgsAux app acc2 suffix with
        | error e => simp only [h2]
        | ok fw =>
          obtain ⟨fin, w2⟩ := fw
          simp [h2, List.append_assoc]

theorem resolveArgsAux_keys {F : Type} (app : F → Assignment F → Value F) :
    ∀ (rest acc fin : Assignment F) (w : List String),
      resolveArgsAux app acc rest = .ok (fin, w) →
      fin.map Prod.fst = acc.map Prod.fst ++ rest.map Prod.fst := by
  intro rest
  induction rest with
  | nil =>
    intro acc fin w h
    simp only [resolveArgsAux] at h
    cases h
    simp
  | cons kv rest ih =>
    intro acc fin w h
    obtain ⟨k, v⟩ := kv
    simp only [resolveArgsAux] at h
    cases hd : deblob app v (acc ++ (k, v) :: rest) with
    | error e =>
      simp only [hd] at h
      exact Except.noConfusion h
    | ok rw1 =>
      obtain ⟨r, w1⟩ := rw1
      simp only [hd] at h
      cases h2 : resolveArgsAux app (acc ++ [(k, optValue r)]) rest with
      | error e =>
        simp only [h2] at h
        exact Except.noConfusion h
      | ok fw =>
        obtain ⟨fin2, w2⟩ := fw
        simp only [h2, Except.ok.injEq, Prod.mk.injEq] at h
        obtain ⟨h1, _h3⟩ := h
        subst h1
        have := ih (acc ++ [(k, optValue r)]) _ w2 h2
        simpa using this

/-- C2: phase-2 resolution proceeds one key at a time in declaration
order, mutating the assignment in place: when the loop reaches key `k`,
its blob is resolved against the dictionary formed by the resolved
leading segment (every value a string or `None`) followed by the raw
entry of `k` itself and the raw later-declared entries; the key order
of the dictionary is preserved; and a combination rejected by the
filter is dropped before any resolution happens. -/
theorem C2_resolution_order {F : Type} (app : F → Assignment F → Value F)
    (pre post : Assignment F) (k : String) (v : Value F)
    (acc2 : Assignment F) (w : List String)
    (h : resolveLeading app ((k, v) :: post) [] pre = .ok (acc2, w)) :
    (resolveArgs app (pre ++ (k, v) :: post) =
      match deblob app v (acc2 ++ (k, v) :: post) with
      | .error e => .error e
      | .ok (r, w1) =>
        match resolveArgsAux app (acc2 ++ [(k, optValue r)]) post with
        | .error e => .error e
        | .ok (fin, w2) => .ok (fin, w ++ (w1 ++ w2)))
    ∧ (∀ q ∈ acc2, isResolved q.2 = true)
    ∧ (∀ fin w2, resolveArgs app (pre ++ (k, v) :: post) = .ok (fin, w2) →
        fin.map Prod.fst = (pre ++ (k, v) :: post).map Prod.fst)
    ∧ (∀ (p : AddParams F) (fs : FS) (argv : List String) (combo : Assignment F)
        (rest : List (Assignment F)) (st : RegState F),
        p.combinationsFilter combo = false →
        addLoop app p fs argv (combo :: rest) st = addLoop app p fs argv rest st) := by
  refine ⟨?_, ?_, ?_, ?_⟩
  · rw [resolveArgs, resolveArgsAux_split app ((k, v) :: post) pre [], h]
    simp only [resolveArgsAux]
    cases hd : deblob app v (acc2 ++ (k, v) :: post) with
    | error e => simp only [hd]
    | ok rw1 =>
      obtain ⟨r, w1⟩ := rw1
      simp only [hd]
      cases h2 : resolveArgsAux app (acc2 ++ [(k, optValue r)]) post with
      | error e => simp only [h2]
      | ok fw =>
        obtain ⟨fin, w2⟩ := fw
        simp [h2, List.append_assoc]
  · exact resolveLeading_resolved app ((k, v) :: post) pre [] acc2 w (by simp) h
  · intro fin w2 hok
    exact resolveArgsAux_keys app (pre ++ (k, v) :: post) [] fin w2 hok
  · intro p fs argv combo rest st hfil
    simp [addLoop, hfil]

/-- C2 witness: resolving `{a: 1, b: "x[[a]][[c]]", c: 7}` reaches `b`
with `a` already resolved to the string `"1"` and `c` still raw. -/
theorem C2_witness :
    resolveLeading app0 ((("b"), Value.vstr ("x[[a]][[c]]")) :: [(("c"), Value.vint 7)])
        [] [(("a"), Value.vint 1)] = .ok ([(("a"), Value.vstr ("1"))], [])
    ∧ (resolveArgs app0 ([(("a"), Value.vint 1)]
          ++ (("b"), Value.vstr ("x[[a]][[c]]")) :: [(("c"), Value.vint 7)]) =
       match deblob app0 (Value.vstr ("x[[a]][[c]]"))
           ([(("a"), Value.vstr ("1"))] ++ (("b"), Value.vstr ("x[[a]][[c]]"))
             :: [(("c"), Value.vint 7)]) with
       | .error e => .error e
       | .ok (r, w1) =>
         match resolveArgsAux app0 ([(("a"), Value.vstr ("1"))] ++ [(("b"), optValue r)])
             [(("c"), Value.vint 7)] with
         | .error e => .error e
         | .ok (fin, w2) => .ok (fin, [] ++ (w1 ++ w2))) := by
  refine ⟨by decide, ?_⟩
  exact (C2_resolution_order app0 [(("a"), Value.vint 1)] [(("c"), Value.vint 7)]
    ("b") (Value.vstr ("x[[a]][[c]]")) [(("a"), Value.vstr ("1"))] [] (by decide)).1

theorem listProduct_length {α : Type} : ∀ ls : List (List α),
    (listProduct ls).length = (ls.map List.length).prod := by
  intro ls
  induction ls with
  | nil => simp [listProduct]
  | cons l ls ih =>
    simp only [listProduct, List.length_flatMap, List.map_map, List.map_cons, List.prod_cons]
    have hconst : (List.map (List.length ∘ fun x => (listProduct ls).map fun t => x :: t) l)
        = List.replicate l.length (listProduct ls).length := by
      have : (List.length ∘ fun x : α => (listProduct ls).map fun t => x :: t)
          = fun _ : α => (listProduct ls).length := by
        funext x
        simp
      rw [this, List.map_const']
    rw [hconst, List.sum_replicate, smul_eq_mul, ih]

theorem flatMap_getD_range {α β : Type} (d : α) :
    ∀ (l : List α) (g : α → List β),
      l.flatMap g = (List.range l.length).flatMap fun i => g (l.getD i d) := by
  intro l
  induction l with
  | nil => intro g; simp
  | cons x l ih =>
    intro g
    rw [List.length_cons, List.range_succ_eq_map, List.flatMap_cons, List.flatMap_cons,
      List.flatMap_map]
    simp only [List.getD_cons_zero, List.getD_cons_succ]
    rw [ih g]

theorem listProduct_decode {α : Type} (d : α) : ∀ ls : List (List α),
    listProduct ls =
      (listProduct (ls.map fun l => List.range l.length)).map (decodeIdx d ls) := by
  intro ls
  induction ls with
  | nil => simp [listProduct, decodeIdx]
  | cons l ls ih =>
    simp only [listProduct, List.map_cons, List.map_flatMap, List.map_map]
    rw [flatMap_getD_range d l fun x => (listProduct ls).map fun t => x :: t]
    congr 1
    funext i
    rw [ih]
    simp only [List.map_map]
    congr 1

theorem pairwise_flatMap {α β : Type} {R : β → β → Prop} :
    ∀ (l : List α) (f : α → List β),
      (∀ a ∈ l, (f a).Pairwise R) →
      l.Pairwise (fun a b => ∀ x ∈ f a, ∀ y ∈ f b, R x y) →
      (l.flatMap f).Pairwise R := by
  intro l
  induction l with
  | nil => intro f _ _; simp
  | cons a l ih =>
    intro f h1 h2
    rw [List.flatMap_cons, List.pairwise_append]
    rcases List.pairwise_cons.mp h2 with ⟨h2a, h2b⟩
    refine ⟨h1 a (List.mem_cons_self a l), ih f (fun b hb => h1 b (List.mem_cons_of_mem a hb)) h2b, ?_⟩
    intro x hx y hy
    rcases List.mem_flatMap.mp hy with ⟨b, hb, hyb⟩
    exact h2a b hb x hx y hyb

theorem listProduct_ranges_pairwise : ∀ lens : List Nat,
    (listProduct (lens.map List.range)).Pairwise (List.Lex (· < ·)) := by
  intro lens
  induction lens with
  | nil => simp [listProduct]
  | cons n lens ih =>
    simp only [List.map_cons, listProduct]
    refine pairwise_flatMap (List.range n)
      (fun i => (listProduct (lens.map List.range)).map fun t => i :: t) ?_ ?_
    · intro i _
      rw [List.pairwise_map]
      exact ih.imp fun h => List.Lex.cons h
    · have := List.pairwise_lt_range n
      refine this.imp ?_
      intro i j hij x hx y hy
      rcases List.mem_map.mp hx with ⟨t, _, rfl⟩
      rcases List.mem_map.mp hy with ⟨u, _, rfl⟩
      exact List.Lex.rel hij

theorem addLoop_trueFilter_length {F : Type} (app : F → Assignment F → Value F)
    (p : AddParams F) (fs : FS) (argv : List String)
    (hfil : p.combinationsFilter = fun _ => true) :
    ∀ (combos : List (Assignment F)) (st st2 : RegState F) (runs : List (RunDesc F))
      (rets : List (Option String)),
      addLoop app p fs argv combos st = .ok (st2, runs, rets) →
      runs.length = combos.length := by
  intro combos
  induction combos with
  | nil =>
    intro st st2 runs rets h
    simp only [addLoop] at h
    cases h
    rfl
  | cons combo rest ih =>
    intro st st2 runs rets h
    simp only [addLoop, hfil, if_true] at h
    cases hp : processCombo app p fs argv st combo with
    | error e =>
      simp only [hp] at h
      exact Except.noConfusion h
    | ok srr =>
      obtain ⟨st3, run, rets1⟩ := srr
      simp only [hp] at h
      cases hl : addLoop app p fs argv rest st3 with
      | error e =>
        simp only [hl] at h
        exact Except.noConfusion h
      | ok srr2 =>
        obtain ⟨st4, runs2, rets2⟩ := srr2
        simp only [hl, Except.ok.injEq, Prod.mk.injEq] at h
        obtain ⟨_, h2, _⟩ := h
        subst h2
        simp [ih st3 st4 runs2 rets2 hl]

/-- C1: for an argument specification whose entries are normalized to
lists, the generated raw assignments are in bijection with the
cartesian product: there are exactly `l1*l2*...*ln` of them (no
deduplication by value), each is the zip of the declared keys with the
value tuple decoded from an index tuple, and the index tuples are
enumerated in strictly increasing lexicographic order; with a filter
that always returns `true`, `add` creates one run descriptor per raw
assignment. -/
theorem C1_combination_generator {F : Type} (descr : List (String × ArgEntry F)) :
    ((argumentsSet descr).length
      = ((descr.map fun q => normalizeEntry q.2).map List.length).prod)
    ∧ (argumentsSet descr =
        (listProduct ((descr.map fun q => normalizeEntry q.2).map fun l =>
          List.range l.length)).map fun idxs =>
            (descr.map Prod.fst).zip
              (decodeIdx Value.vnone (descr.map fun q => normalizeEntry q.2) idxs))
    ∧ ((listProduct ((descr.map fun q => normalizeEntry q.2).map fun l =>
          List.range l.length)).Pairwise (List.Lex (· < ·)))
    ∧ (∀ (app : F → Assignment F → Value F) (p : AddParams F) (fs : FS)
        (argv : List String) (st : RegState F),
        p.argumentsDescr = descr →
        p.combinationsFilter = (fun _ => true) →
        exceptIsOk (addModel app p fs argv st) = true →
        addRunsCount app p fs argv st =
          some (((descr.map fun q => normalizeEntry q.2).map List.length).prod)) := by
  refine ⟨?_, ?_, ?_, ?_⟩
  · rw [argumentsSet, List.length_map, listProduct_length]
  · rw [argumentsSet, listProduct_decode Value.vnone (descr.map fun q => normalizeEntry q.2),
      List.map_map]
    simp [Function.comp]
  · have h := listProduct_ranges_pairwise ((descr.map fun q => normalizeEntry q.2).map
      List.length)
    rw [List.map_map] at h
    have heq : (List.range ∘ List.length) = fun l : List (Value F) => List.range l.length := rfl
    rwa [heq] at h
  · intro app p fs argv st hdescr hfil hok
    cases hm : addModel app p fs argv st with
    | error e =>
      rw [hm] at hok
      simp [exceptIsOk] at hok
    | ok srr =>
      obtain ⟨st2, runs, rets⟩ := srr
      have hcount : addRunsCount app p fs argv st = some runs.length := by
        rw [addRunsCount, hm]
      have hm2 := hm
      rw [addModel] at hm2
      cases hl : addLoop app p fs argv (argumentsSet p.argumentsDescr) st with
      | error e =>
        rw [hl] at hm2
        exact Except.noConfusion hm2
      | ok srr2 =>
        obtain ⟨st3, runs2, rets2⟩ := srr2
        simp only [hl, Except.ok.injEq, Prod.mk.injEq] at hm2
        obtain ⟨_, h2, _⟩ := hm2
        subst h2
        have hlen := addLoop_trueFilter_length app p fs argv hfil
          (argumentsSet p.argumentsDescr) st st3 runs2 rets2 hl
        rw [hcount, hlen, hdescr, argumentsSet, List.length_map, listProduct_length]

/-- C1 witness: an `add` call whose value lists are `[1, 1]` (the same
value twice) and a scalar generates `2 * 1 = 2` descriptors. -/
theorem C1_witness :
    pC1.argumentsDescr = pC1.argumentsDescr
    ∧ pC1.combinationsFilter = (fun _ => true)
    ∧ exceptIsOk (addModel app0 pC1 [] [] initRegState) = true
    ∧ addRunsCount app0 pC1 [] [] initRegState = some 2 := by
  refine ⟨rfl, rfl, by decide, ?_⟩
  have h := (C1_combination_generator pC1.argumentsDescr).2.2.2 app0 pC1 [] [] initRegState
    rfl rfl (by decide)
  exact h.trans (by decide)

theorem processCombo_rets_nil {F : Type} (app : F → Assignment F → Value F)
    (p : AddParams F) (fs : FS) (argv : List String) (st : RegState F) (c : Assignment F)
    (st2 : RegState F) (run : RunDesc F) (rets1 : List (Option String))
    (h : processCombo app p fs argv st c = .ok (st2, run, rets1))
    (hrs : p.returnString = Value.vnone) : rets1 = [] := by
  rw [processCombo] at h
  simp only [bind, Except.bind, hrs, pure, Except.pure] at h
  split at h
  · exact Except.noConfusion h
  · split at h
    · exact Except.noConfusion h
    · split at h
      · exact Except.noConfusion h
      · split at h
        · exact Except.noConfusion h
        · split at h
          · exact Except.noConfusion h
          · split at h
            · exact Except.noConfusion h
            · split at h
              · exact Except.noConfusion h
              · simp only [Except.ok.injEq, Prod.mk.injEq] at h
                exact h.2.2.symm

theorem processCombo_rets_one {F : Type} (app : F → Assignment F → Value F)
    (p : AddParams F) (fs : FS) (argv : List String) (st : RegState F) (c : Assignment F)
    (st2 : RegState F) (run : RunDesc F) (rets1 : List (Option String))
    (h : processCombo app p fs argv st c = .ok (st2, run, rets1))
    (hrs : p.returnString ≠ Value.vnone) : rets1.length = 1 := by
  cases hval : p.returnString
  case vnone => exact absurd hval hrs
  all_goals
    rw [processCombo] at h
    simp only [bind, Except.bind, hval, pure, Except.pure] at h
    split at h
    · exact Except.noConfusion h
    · split at h
      · exact Except.noConfusion h
      · split at h
        · exact Except.noConfusion h
        · split at h
          · exact Except.noConfusion h
          · split at h
            · exact Except.noConfusion h
            · split at h
              · exact Except.noConfusion h
              · split at h
                · exact Except.noConfusion h
                · split at h
                  · exact Except.noConfusion h
                  · simp only [Except.ok.injEq, Prod.mk.injEq] at h
                    rw [← h.2.2]
                    rfl

theorem addLoop_rets_length {F : Type} (app : F → Assignment F → Value F)
    (p : AddParams F) (fs : FS) (argv : List String)
    (hrs : p.returnString ≠ Value.vnone) :
    ∀ (combos : List (Assignment F)) (st st2 : RegState F) (runs : List (RunDesc F))
      (rets : List (Option String)),
      addLoop app p fs argv combos st = .ok (st2, runs, rets) →
      rets.length = runs.length := by
  intro combos
  induction combos with
  | nil =>
    intro st st2 runs rets h
    simp only [addLoop] at h
    cases h
    rfl
  | cons combo rest ih =>
    intro st st2 runs rets h
    simp only [addLoop] at h
    by_cases hf : p.combinationsFilter combo = true
    · simp only [hf, if_true] at h
      cases hp : processCombo app p fs argv st combo with
      | error e =>
        simp only [hp] at h
        exact Except.noConfusion h
      | ok srr =>
        obtain ⟨st3, run, rets1⟩ := srr
        simp only [hp] at h
        cases hl : addLoop app p fs argv rest st3 with
        | error e =>
          simp only [hl] at h
          exact Except.noConfusion h
        | ok srr2 =>
          obtain ⟨st4, runs2, rets2⟩ := srr2
          simp only [hl, Except.ok.injEq, Prod.mk.injEq] at h
          obtain ⟨_, h2, h3⟩ := h
          subst h2
          subst h3
          have h1 := processCombo_rets_one app p fs argv st combo st3 run rets1 hp hrs
          have h4 := ih st3 st4 runs2 rets2 hl
          simp [h1, h4, Nat.add_comm]
    · simp only [Bool.not_eq_true] at hf
      simp only [hf, Bool.false_eq_true, if_false] at h
      exact ih st st2 runs rets h

/-- C6 counterexample: `add(name="exp", arguments_descr={a:[1]},
return_string="r[[a]]")` creates one descriptor named `exp` but returns
`["r1"]` (the resolved `return_string` blobs), not `["exp"]`; and the
same call without `return_string` creates a descriptor named `exp` but
returns `None`, not a sequence of names at all. -/
theorem C6_counterexample :
    addRet app0 pC6 [] [] initRegState = some [some ("r1")]
    ∧ addNames app0 pC6 [] [] initRegState = [some ("exp")]
    ∧ addRet app0 pC6 [] [] initRegState ≠
        some (addNames app0 pC6 [] [] initRegState)
    ∧ addRet app0 pC6b [] [] initRegState = none
    ∧ addNames app0 pC6b [] [] initRegState = [some ("exp")] := by
  refine ⟨by decide, by decide, by decide, by decide, by decide⟩

/-- C6 (amended): `add` returns `None` unless `return_string` is given,
in which case it returns the list of resolved `return_string` blobs,
one entry per run descriptor created (one per combination that passed
the filter) — not the experiment names. -/
theorem C6_add_return_value {F : Type} (app : F → Assignment F → Value F)
    (p : AddParams F) (fs : FS) (argv : List String) (st : RegState F)
    (hok : exceptIsOk (addModel app p fs argv st) = true) :
    (p.returnString = Value.vnone → addRet app p fs argv st = none)
    ∧ (p.returnString ≠ Value.vnone →
        ∃ l, addRet app p fs argv st = some l
          ∧ l.length = (addNames app p fs argv st).length) := by
  cases hm : addModel app p fs argv st with
  | error e =>
    rw [hm] at hok
    simp [exceptIsOk] at hok
  | ok srr =>
    obtain ⟨st2, runs, rets⟩ := srr
    have hret : addRet app p fs argv st = rets := by rw [addRet, hm]
    have hnames : addNames app p fs argv st = runs.map fun r => r.name := by
      rw [addNames, hm]
    have hm2 := hm
    rw [addModel] at hm2
    cases hl : addLoop app p fs argv (argumentsSet p.argumentsDescr) st with
    | error e =>
      rw [hl] at hm2
      exact Except.noConfusion hm2
    | ok srr2 =>
      obtain ⟨st3, runs2, rets2⟩ := srr2
      simp only [hl, Except.ok.injEq, Prod.mk.injEq] at hm2
      obtain ⟨_, h2, h3⟩ := hm2
      subst h2
      constructor
      · intro hrs
        rw [hret, ← h3, hrs]
      · intro hrs
        have hlen := addLoop_rets_length app p fs argv hrs
          (argumentsSet p.argumentsDescr) st st3 runs2 rets2 hl
        refine ⟨rets2, ?_, ?_⟩
        · rw [hret, ← h3]
          cases hval : p.returnString with
          | vnone => exact absurd hval hrs
          | vstr t => rfl
          | vint n => rfl
          | vfun f => rfl
        · rw [hnames, List.length_map]
          exact hlen

/-- C6 witness: an `add` call without `return_string` returns `None`. -/
theorem C6_witness :
    exceptIsOk (addModel app0 pC6b [] [] initRegState) = true
    ∧ pC6b.returnString = Value.vnone
    ∧ addRet app0 pC6b [] [] initRegState = none := by
  refine ⟨by decide, rfl, ?_⟩
  exact (C6_add_return_value app0 pC6b [] [] initRegState (by decide)).1 rfl

theorem aupdate_aupdate {κ β : Type} [DecidableEq κ] :
    ∀ (l : List (κ × β)) (key : κ) (v w : β),
      aupdate (aupdate l key v) key w = aupdate l key w := by
  intro l
  induction l with
  | nil => intro key v w; simp [aupdate]
  | cons hd tl ih =>
    intro key v w
    by_cases h : hd.1 = key
    · simp [aupdate, h]
    · simp [aupdate, h, ih]

/-- C8 counterexample: executing a run with a configured `stdout_res`
mutates the descriptor's argument assignment in place, binding the
synthetic key `stdout` (lines 501/504 of `run.py`), so the assignment
after execution differs from the one the descriptor was created with. -/
theorem C8_counterexample :
    outputStage app0 runC8 resC8 =
      .ok (("out"), [(("a"), Value.vstr ("1")), (("stdout"), Value.vstr ("out"))])
    ∧ [(("a"), Value.vstr (F := Unit) ("1")), (("stdout"), Value.vstr ("out"))] ≠ runC8.args := by
  refine ⟨by decide, by decide⟩

/-- C8 (amended): run-descriptor fields are never reassigned, and with
the default `stdout_mod` and no `stdout_res` execution leaves the
argument assignment unchanged; but when `stdout_mod` is non-default or
`stdout_res` is configured, `_run_run` mutates the assignment in place,
and the only mutation is binding the synthetic key `stdout`. -/
theorem C8_args_frame {F : Type} (app : F → Assignment F → Value F)
    (run : RunDesc F) (res : ExecResult) :
    ((run.stdoutMod = StdoutMod.identity ∧ run.stdoutRes = Value.vnone) →
      ∀ out a, outputStage app run res = .ok (out, a) → a = run.args)
    ∧ (∀ out a, outputStage app run res = .ok (out, a) →
        a = run.args ∨ ∃ v, a = aupdate run.args ("stdout") v) := by
  constructor
  · rintro ⟨hmod, hres⟩ out a h
    rw [outputStage] at h
    simp only [bind, Except.bind, pure, Except.pure, hmod, hres] at h
    simp only [Except.ok.injEq, Prod.mk.injEq] at h
    exact h.2.symm
  · intro out a h
    rw [outputStage] at h
    cases hmod : run.stdoutMod <;> cases hres : run.stdoutRes <;>
        simp only [bind, Except.bind, pure, Except.pure, hmod, hres] at h <;>
      first
      | (simp only [Except.ok.injEq, Prod.mk.injEq] at h
         exact Or.inl h.2.symm)
      | (split at h
         · exact Except.noConfusion h
         · simp only [Except.ok.injEq, Prod.mk.injEq] at h
           exact Or.inr ⟨_, h.2.symm⟩)
      | (split at h
         · exact Except.noConfusion h
         · split at h
           · exact Except.noConfusion h
           · simp only [Except.ok.injEq, Prod.mk.injEq] at h
             rw [aupdate_aupdate] at h
             exact Or.inr ⟨_, h.2.symm⟩)

/-- C8 witness: with the default `stdout_mod` and no `stdout_res` the
assignment is unchanged by execution. -/
theorem C8_witness :
    (runC8id.stdoutMod = StdoutMod.identity ∧ runC8id.stdoutRes = Value.vnone)
    ∧ outputStage app0 runC8id resC8 = .ok (("out"), runC8id.args)
    ∧ [(("a"), Value.vstr (F := Unit) ("1"))] = runC8id.args := by
  refine ⟨⟨rfl, rfl⟩, by decide, ?_⟩
  exact (C8_args_frame app0 runC8id resC8).1 ⟨rfl, rfl⟩ ("out")
    [(("a"), Value.vstr ("1"))] (by decide)

theorem setPC_pc {k : Nat} (s : HState k) (i j : Fin k) (p : WPC) :
    (setPC s i p).pc j = if j = i then p else s.pc j := rfl

theorem contentInv_congr {k : Nat} (header : String) (out : Fin k → String)
    (s s2 : HState k) (hfile : s2.file = s.file)
    (happ : ∀ j, appended (s2.pc j) = appended (s.pc j)) :
    ContentInv header out s → ContentInv header out s2 := by
  intro hc
  rw [ContentInv, hfile]
  rw [ContentInv] at hc
  cases hf : s.file with
  | none =>
    rw [hf] at hc
    intro j
    rw [happ j]
    exact hc j
  | some ls =>
    rw [hf] at hc
    obtain ⟨l, hnd, hmem, hls⟩ := hc
    exact ⟨l, hnd, fun j => by rw [happ j]; exact hmem j, hls⟩

theorem inv_setPC_pure {k : Nat} (header : String) (out : Fin k → String)
    (s : HState k) (i : Fin k) (p : WPC) (inv : Inv header out s)
    (hhold : holding p = holding (s.pc i))
    (happ : appended p = appended (s.pc i))
    (hwrite : p = .write1 → s.file = none)
    (hhf : p = .rel1 ∨ p = .lock2 ∨ p = .append → s.file.isSome = true)
    (hcnt : p = .lock1 ∨ p = .check1 ∨ p = .write1 → 1 ≤ s.headerExecs) :
    Inv header out (setPC s i p) := by
  refine ⟨?_, ?_, ?_, ?_, ?_, ?_, ?_⟩
  · intro j hj
    rw [setPC_pc]
    by_cases hji : j = i
    · rw [if_pos hji, hhold]
      subst hji
      exact inv.lockOwn j hj
    · rw [if_neg hji]
      exact inv.lockOwn j hj
  · intro j hj
    rw [setPC_pc] at hj
    by_cases hji : j = i
    · rw [if_pos hji, hhold] at hj
      subst hji
      exact inv.ownLock j hj
    · rw [if_neg hji] at hj
      exact inv.ownLock j hj
  · intro j hj
    rw [setPC_pc] at hj
    by_cases hji : j = i
    · rw [if_pos hji] at hj
      exact hwrite hj
    · rw [if_neg hji] at hj
      exact inv.writeAbs j hj
  · intro j hj
    rw [setPC_pc] at hj
    by_cases hji : j = i
    · rw [if_pos hji] at hj
      exact hhf hj
    · rw [if_neg hji] at hj
      exact inv.hasFile j hj
  · intro j hj
    rw [setPC_pc] at hj
    by_cases hji : j = i
    · rw [if_pos hji] at hj
      exact hcnt hj
    · rw [if_neg hji] at hj
      exact inv.hdrCnt j hj
  · intro hfile
    exact inv.fileHdr hfile
  · refine contentInv_congr header out s _ rfl ?_ inv.content
    intro j
    rw [setPC_pc]
    by_cases hji : j = i
    · rw [if_pos hji, happ, hji]
    · rw [if_neg hji]

theorem inv_step {k : Nat} (header : String) (out : Fin k → String)
    (s : HState k) (i : Fin k) (inv : Inv header out s) :
    Inv header out (step header out s i) := by
  cases hpc : s.pc i with
  | outerCheck =>
    simp only [step, hpc]
    by_cases hf : s.file.isSome = true
    · rw [if_pos hf]
      refine inv_setPC_pure header out s i _ inv ?_ ?_ ?_ ?_ ?_
      · rw [hpc]
        decide
      · rw [hpc]
        decide
      · intro h; exact absurd h (by decide)
      · intro _; exact hf
      · intro h; rcases h with h | h | h <;> exact absurd h (by decide)
    · rw [if_neg hf]
      refine inv_setPC_pure header out s i _ inv ?_ ?_ ?_ ?_ ?_
      · rw [hpc]
        decide
      · rw [hpc]
        decide
      · intro h; exact absurd h (by decide)
      · intro h; rcases h with h | h | h <;> exact absurd h (by decide)
      · intro h; rcases h with h | h | h <;> exact absurd h (by decide)
  | runHeaderCmd =>
    simp only [step, hpc]
    refine ⟨?_, ?_, ?_, ?_, ?_, ?_, ?_⟩
    · intro j hj
      dsimp only [setPC] at hj ⊢
      by_cases hji : j = i
      · subst hji
        have h0 := inv.lockOwn j hj
        rw [hpc] at h0
        exact absurd h0 (by decide)
      · rw [if_neg hji]
        exact inv.lockOwn j hj
    · intro j hj
      dsimp only [setPC] at hj ⊢
      by_cases hji : j = i
      · subst hji
        rw [if_pos rfl] at hj
        exact absurd hj (by decide)
      · rw [if_neg hji] at hj
        exact inv.ownLock j hj
    · intro j hj
      dsimp only [setPC] at hj ⊢
      by_cases hji : j = i
      · subst hji
        rw [if_pos rfl] at hj
        exact absurd hj (by decide)
      · rw [if_neg hji] at hj
        exact inv.writeAbs j hj
    · intro j hj
      dsimp only [setPC] at hj ⊢
      by_cases hji : j = i
      · subst hji
        rw [if_pos rfl] at hj
        rcases hj with h | h | h <;> exact absurd h (by decide)
      · rw [if_neg hji] at hj
        exact inv.hasFile j hj
    · intro j hj
      dsimp only [setPC] at hj ⊢
      exact Nat.le_add_left 1 s.headerExecs
    · intro hfile
      dsimp only [setPC] at hfile ⊢
      exact Nat.le_succ_of_le (inv.fileHdr hfile)
    · refine contentInv_congr header out s _ rfl ?_ inv.content
      intro j
      dsimp only [setPC]
      by_cases hji : j = i
      · rw [if_pos hji, hji, hpc]
        decide
      · rw [if_neg hji]
  | lock1 =>
    simp only [step, hpc]
    cases hlock : s.lock with
    | some m => exact inv
    | none =>
      refine ⟨?_, ?_, ?_, ?_, ?_, ?_, ?_⟩
      · intro j hj
        dsimp only [setPC] at hj ⊢
        injection hj with hij
        subst hij
        rw [if_pos rfl]
        decide
      · intro j hj
        dsimp only [setPC] at hj ⊢
        by_cases hji : j = i
        · rw [hji]
        · rw [if_neg hji] at hj
          have h0 := inv.ownLock j hj
          rw [hlock] at h0
          exact Option.noConfusion h0
      · intro j hj
        dsimp only [setPC] at hj ⊢
        by_cases hji : j = i
        · subst hji
          rw [if_pos rfl] at hj
          exact absurd hj (by decide)
        · rw [if_neg hji] at hj
          exact inv.writeAbs j hj
      · intro j hj
        dsimp only [setPC] at hj ⊢
        by_cases hji : j = i
        · subst hji
          rw [if_pos rfl] at hj
          rcases hj with h | h | h <;> exact absurd h (by decide)
        · rw [if_neg hji] at hj
          exact inv.hasFile j hj
      · intro j hj
        dsimp only [setPC] at hj ⊢
        exact inv.hdrCnt i (Or.inl hpc)
      · intro hfile
        exact inv.fileHdr hfile
      · refine contentInv_congr header out s _ rfl ?_ inv.content
        intro j
        dsimp only [setPC]
        by_cases hji : j = i
        · rw [if_pos hji, hji, hpc]
          decide
        · rw [if_neg hji]
  | check1 =>
    simp only [step, hpc]
    have hlocki : s.lock = some i := inv.ownLock i (by rw [hpc]; rfl)
    by_cases hf : s.file.isSome = true
    · rw [if_pos hf]
      refine inv_setPC_pure header out s i _ inv ?_ ?_ ?_ ?_ ?_
      · rw [hpc]
        decide
      · rw [hpc]
        decide
      · intro h; exact absurd h (by decide)
      · intro _; exact hf
      · intro h; rcases h with h | h | h <;> exact absurd h (by decide)
    · rw [if_neg hf]
      refine inv_setPC_pure header out s i _ inv ?_ ?_ ?_ ?_ ?_
      · rw [hpc]
        decide
      · rw [hpc]
        decide
      · intro _
        cases hfv : s.file with
        | none => rfl
        | some ls => rw [hfv] at hf; exact absurd rfl hf
      · intro h; rcases h with h | h | h <;> exact absurd h (by decide)
      · intro _
        exact inv.hdrCnt i (Or.inr (Or.inl hpc))
  | write1 =>
    simp only [step, hpc]
    have hlocki : s.lock = some i := inv.ownLock i (by rw [hpc]; rfl)
    have hfnone : s.file = none := inv.writeAbs i hpc
    refine ⟨?_, ?_, ?_, ?_, ?_, ?_, ?_⟩
    · intro j hj
      dsimp only [setPC] at hj ⊢
      rw [hlocki] at hj
      injection hj with hij
      subst hij
      rw [if_pos rfl]
      decide
    · intro j hj
      dsimp only [setPC] at hj ⊢
      by_cases hji : j = i
      · rw [hji]
        exact hlocki
      · rw [if_neg hji] at hj
        exact inv.ownLock j hj
    · intro j hj
      dsimp only [setPC] at hj ⊢
      by_cases hji : j = i
      · subst hji
        rw [if_pos rfl] at hj
        exact absurd hj (by decide)
      · rw [if_neg hji] at hj
        have h1 := inv.ownLock j (by rw [hj]; rfl)
        rw [hlocki] at h1
        injection h1 with h2
        exact absurd h2.symm hji
    · intro j hj
      rfl
    · intro j hj
      dsimp only [setPC] at hj ⊢
      by_cases hji : j = i
      · subst hji
        rw [if_pos rfl] at hj
        rcases hj with h | h | h <;> exact absurd h (by decide)
      · rw [if_neg hji] at hj
        exact inv.hdrCnt j hj
    · intro _
      exact inv.hdrCnt i (Or.inr (Or.inr hpc))
    · have hc := inv.content
      rw [ContentInv, hfnone] at hc
      rw [ContentInv]
      refine ⟨[], List.nodup_nil, ?_, by simp⟩
      intro j
      dsimp only [setPC]
      simp only [List.not_mem_nil, false_iff]
      by_cases hji : j = i
      · rw [if_pos hji]
        decide
      · rw [if_neg hji]
        simp [hc j]
  | rel1 =>
    simp only [step, hpc]
    have hlocki : s.lock = some i := inv.ownLock i (by rw [hpc]; rfl)
    refine ⟨?_, ?_, ?_, ?_, ?_, ?_, ?_⟩
    · intro j hj
      exact Option.noConfusion hj
    · intro j hj
      dsimp only [setPC] at hj ⊢
      by_cases hji : j = i
      · subst hji
        rw [if_pos rfl] at hj
        exact absurd hj (by decide)
      · rw [if_neg hji] at hj
        have h1 := inv.ownLock j hj
        rw [hlocki] at h1
        injection h1 with h2
        exact absurd h2.symm hji
    · intro j hj
      dsimp only [setPC] at hj ⊢
      by_cases hji : j = i
      · subst hji
        rw [if_pos rfl] at hj
        exact absurd hj (by decide)
      · rw [if_neg hji] at hj
        exact inv.writeAbs j hj
    · intro j hj
      dsimp only [setPC] at hj ⊢
      by_cases hji : j = i
      · exact inv.hasFile i (Or.inl hpc)
      · rw [if_neg hji] at hj
        exact inv.hasFile j hj
    · intro j hj
      dsimp only [setPC] at hj ⊢
      by_cases hji : j = i
      · subst hji
        rw [if_pos rfl] at hj
        rcases hj with h | h | h <;> exact absurd h (by decide)
      · rw [if_neg hji] at hj
        exact inv.hdrCnt j hj
    · intro hfile
      exact inv.fileHdr hfile
    · refine contentInv_congr header out s _ rfl ?_ inv.content
      intro j
      dsimp only [setPC]
      by_cases hji : j = i
      · rw [if_pos hji, hji, hpc]
        decide
      · rw [if_neg hji]
  | lock2 =>
    simp only [step, hpc]
    cases hlock : s.lock with
    | some m => exact inv
    | none =>
      refine ⟨?_, ?_, ?_, ?_, ?_, ?_, ?_⟩
      · intro j hj
        dsimp only [setPC] at hj ⊢
        injection hj with hij
        subst hij
        rw [if_pos rfl]
        decide
      · intro j hj
        dsimp only [setPC] at hj ⊢
        by_cases hji : j = i
        · rw [hji]
        · rw [if_neg hji] at hj
          have h0 := inv.ownLock j hj
          rw [hlock] at h0
          exact Option.noConfusion h0
      · intro j hj
        dsimp only [setPC] at hj ⊢
        by_cases hji : j = i
        · subst hji
          rw [if_pos rfl] at hj
          exact absurd hj (by decide)
        · rw [if_neg hji] at hj
          exact inv.writeAbs j hj
      · intro j hj
        dsimp only [setPC] at hj ⊢
        by_cases hji : j = i
        · exact inv.hasFile i (Or.inr (Or.inl hpc))
        · rw [if_neg hji] at hj
          exact inv.hasFile j hj
      · intro j hj
        dsimp only [setPC] at hj ⊢
        by_cases hji : j = i
        · subst hji
          rw [if_pos rfl] at hj
          rcases hj with h | h | h <;> exact absurd h (by decide)
        · rw [if_neg hji] at hj
          exact inv.hdrCnt j hj
      · intro hfile
        exact inv.fileHdr hfile
      · refine contentInv_congr header out s _ rfl ?_ inv.content
        intro j
        dsimp only [setPC]
        by_cases hji : j = i
        · rw [if_pos hji, hji, hpc]
          decide
        · rw [if_neg hji]
  | append =>
    simp only [step, hpc]
    have hlocki : s.lock = some i := inv.ownLock i (by rw [hpc]; rfl)
    have hsome : s.file.isSome = true := inv.hasFile i (Or.inr (Or.inr hpc))
    obtain ⟨ls, hls⟩ : ∃ ls, s.file = some ls := by
      cases hfv : s.file with
      | none => rw [hfv] at hsome; exact absurd hsome (by decide)
      | some ls => exact ⟨ls, rfl⟩
    refine ⟨?_, ?_, ?_, ?_, ?_, ?_, ?_⟩
    · intro j hj
      dsimp only [setPC] at hj ⊢
      rw [hlocki] at hj
      injection hj with hij
      subst hij
      rw [if_pos rfl]
      decide
    · intro j hj
      dsimp only [setPC] at hj ⊢
      by_cases hji : j = i
      · rw [hji]
        exact hlocki
      · rw [if_neg hji] at hj
        exact inv.ownLock j hj
    · intro j hj
      dsimp only [setPC] at hj ⊢
      by_cases hji : j = i
      · subst hji
        rw [if_pos rfl] at hj
        exact absurd hj (by decide)
      · rw [if_neg hji] at hj
        have h1 := inv.ownLock j (by rw [hj]; rfl)
        rw [hlocki] at h1
        injection h1 with h2
        exact absurd h2.symm hji
    · intro j hj
      rfl
    · intro j hj
      dsimp only [setPC] at hj ⊢
      by_cases hji : j = i
      · subst hji
        rw [if_pos rfl] at hj
        rcases hj with h | h | h <;> exact absurd h (by decide)
      · rw [if_neg hji] at hj
        exact inv.hdrCnt j hj
    · intro _
      exact inv.fileHdr hsome
    · have hc := inv.content
      rw [ContentInv, hls] at hc
      obtain ⟨l, hnd, hmem, hlseq⟩ := hc
      have hinotin : i ∉ l := by
        intro hin
        have h0 := (hmem i).mp hin
        rw [hpc] at h0
        exact absurd h0 (by decide)
      rw [ContentInv]
      simp only [hls, Option.getD_some]
      refine ⟨l ++ [i], ?_, ?_, ?_⟩
      · simp [List.nodup_append, hnd, hinotin]
      · intro j
        dsimp only [setPC]
        simp only [List.mem_append, List.mem_singleton]
        by_cases hji : j = i
        · subst hji
          rw [if_pos rfl]
          simp [appended]
        · rw [if_neg hji]
          simp only [hji, or_false]
          exact hmem j
      · rw [hlseq]
        simp
  | rel2 =>
    simp only [step, hpc]
    have hlocki : s.lock = some i := inv.ownLock i (by rw [hpc]; rfl)
    refine ⟨?_, ?_, ?_, ?_, ?_, ?_, ?_⟩
    · intro j hj
      exact Option.noConfusion hj
    · intro j hj
      dsimp only [setPC] at hj ⊢
      by_cases hji : j = i
      · subst hji
        rw [if_pos rfl] at hj
        exact absurd hj (by decide)
      · rw [if_neg hji] at hj
        have h1 := inv.ownLock j hj
        rw [hlocki] at h1
        injection h1 with h2
        exact absurd h2.symm hji
    · intro j hj
      dsimp only [setPC] at hj ⊢
      by_cases hji : j = i
      · subst hji
        rw [if_pos rfl] at hj
        exact absurd hj (by decide)
      · rw [if_neg hji] at hj
        exact inv.writeAbs j hj
    · intro j hj
      dsimp only [setPC] at hj ⊢
      by_cases hji : j = i
      · subst hji
        rw [if_pos rfl] at hj
        rcases hj with h | h | h <;> exact absurd h (by decide)
      · rw [if_neg hji] at hj
        exact inv.hasFile j hj
    · intro j hj
      dsimp only [setPC] at hj ⊢
      by_cases hji : j = i
      · subst hji
        rw [if_pos rfl] at hj
        rcases hj with h | h | h <;> exact absurd h (by decide)
      · rw [if_neg hji] at hj
        exact inv.hdrCnt j hj
    · intro hfile
      exact inv.fileHdr hfile
    · refine contentInv_congr header out s _ rfl ?_ inv.content
      intro j
      dsimp only [setPC]
      by_cases hji : j = i
      · rw [if_pos hji, hji, hpc]
        decide
      · rw [if_neg hji]
  | done =>
    simp only [step, hpc]
    exact inv

theorem inv_init {k : Nat} (header : String) (out : Fin k → String) :
    Inv header out (initState k) := by
  refine ⟨?_, ?_, ?_, ?_, ?_, ?_, ?_⟩
  · intro j hj
    exact Option.noConfusion hj
  · intro j hj
    simp [initState, holding] at hj
  · intro j hj
    simp [initState] at hj
  · intro j hj
    rcases hj with h | h | h <;> simp [initState] at h
  · intro j hj
    rcases hj with h | h | h <;> simp [initState] at h
  · intro hfile
    simp [initState] at hfile
  · rw [ContentInv]
    intro j
    rfl

theorem inv_runSched {k : Nat} (header : String) (out : Fin k → String) :
    ∀ (sched : List (Fin k)) (s : HState k), Inv header out s →
      Inv header out (runSched header out s sched) := by
  intro sched
  induction sched with
  | nil => intro s hs; exact hs
  | cons i rest ih =>
    intro s hs
    exact ih (step header out s i) (inv_step header out s i hs)

/-- C3 counterexample: two workers racing on an absent file, both
passing the unlocked existence check before either takes the lock,
both compute the header — the header command is executed twice, not
"exactly once by the worker that wins the lock" — although the file
still ends up with the header once followed by both output lines. -/
theorem C3_counterexample :
    (runSched ("hdr") outC3 (initState 2) schedC3b).headerExecs = 2
    ∧ (∀ i, (runSched ("hdr") outC3 (initState 2) schedC3b).pc i = WPC.done)
    ∧ (runSched ("hdr") outC3 (initState 2) schedC3b).file =
        some [("hdr"), ("line0"), ("line1")] := by
  refine ⟨by decide, by decide, by decide⟩

/-- C3 (amended): for `k` workers racing on a previously-absent file
with a header configured, under every schedule in which all workers
finish, the resulting file contains the header exactly once as its
first line followed by exactly `k` appended output lines (one per
worker, in some schedule-dependent order), and the header source is
computed at least once — but, when the header is command-derived, the
header command may be executed more than once (once per worker that
observes the file absent at the unlocked check), not exactly once by
the lock winner. -/
theorem C3_header_once (k : Nat) (header : String) (out : Fin k → String)
    (sched : List (Fin k)) (hk : 0 < k)
    (hdone : ∀ i, (runSched header out (initState k) sched).pc i = WPC.done) :
    ∃ l : List (Fin k), l.Nodup ∧ (∀ i : Fin k, i ∈ l) ∧ l.length = k
      ∧ (runSched header out (initState k) sched).file = some (header :: l.map out)
      ∧ 1 ≤ (runSched header out (initState k) sched).headerExecs := by
  have hinv := inv_runSched header out sched (initState k) (inv_init header out)
  have hc := hinv.content
  rw [ContentInv] at hc
  cases hfv : (runSched header out (initState k) sched).file with
  | none =>
    rw [hfv] at hc
    have h0 := hc ⟨0, hk⟩
    rw [hdone ⟨0, hk⟩] at h0
    exact absurd h0 (by decide)
  | some ls =>
    rw [hfv] at hc
    obtain ⟨l, hnd, hmem, hlseq⟩ := hc
    have hall : ∀ i : Fin k, i ∈ l := by
      intro i
      refine (hmem i).mpr ?_
      rw [hdone i]
      decide
    have hlen : l.length = k := by
      have h1 : l.toFinset = Finset.univ := by
        ext i
        simp [hall i]
      have h2 := List.toFinset_card_of_nodup hnd
      rw [h1, Finset.card_univ, Fintype.card_fin] at h2
      exact h2.symm
    refine ⟨l, hnd, hall, hlen, ?_, ?_⟩
    · rw [hlseq]
    · refine hinv.fileHdr ?_
      rw [hfv]
      rfl

/-- C3 witness: two workers run to completion sequentially; the file is
the header followed by both lines. -/
theorem C3_witness :
    (0 < 2 ∧ ∀ i, (runSched ("hdr") outC3 (initState 2) schedC3a).pc i = WPC.done)
    ∧ ∃ l : List (Fin 2), l.Nodup ∧ (∀ i : Fin 2, i ∈ l) ∧ l.length = 2
      ∧ (runSched ("hdr") outC3 (initState 2) schedC3a).file =
          some (("hdr") :: l.map outC3)
      ∧ 1 ≤ (runSched ("hdr") outC3 (initState 2) schedC3a).headerExecs := by
  refine ⟨⟨by decide, by decide⟩, ?_⟩
  exact C3_header_once 2 ("hdr") outC3 schedC3a (by decide) (by decide)

end RunPy
